import Mathlib

/-!
Formal model of the credential-rotating transcription engine in `main.py` of
TranscriptAI-SK.  Every definition is a shallow embedding of the corresponding
Python code; times as an ordered ring, strings as `String` or `List Char`.
The theorems check the claims of the natural-language specification.
-/

namespace TranscriptAI

/-- Per-credential usage record, one entry of `self.key_usage`
(`{"calls": 0, "last_reset": ..., "cooldown_until": 0}`). -/
structure Usage (T : Type) where
  calls : Nat
  last_reset : T
  cooldown_until : T
deriving Repr, DecidableEq

/- Python times are floats; the pool logic only adds, subtracts and compares
them, so it is modelled over an arbitrary linearly ordered ring of time
values (ℚ, ℤ, ... are instances). -/
variable {T : Type} [LinearOrderedRing T]

/-- The key lists read from `settings_manager.settings` in `_get_next_key`. -/
structure PoolSettings where
  paid_api_keys : List String
  free_api_keys : List String
deriving Repr, DecidableEq

/-- The backup-reserve size computed in `_get_next_key` (main.py:292-297):
`backup_count = max(1, int(len(free_keys) * 0.25))` followed by
`if backup_count >= len(free_keys): backup_count = 0 if len(free_keys) == 1 else 1`,
all guarded by `if free_keys:`.  `int(n * 0.25)` on a list length is exact
floating-point arithmetic and equals `n / 4` in integer division. -/
def backup_count (free_keys : List String) : Nat :=
  if free_keys.isEmpty then 0
  else
    let b := max 1 (free_keys.length / 4)
    if free_keys.length ≤ b then (if free_keys.length = 1 then 0 else 1) else b

/-- `backup_keys = free_keys[-backup_count:]` when the reserve is non-empty
(main.py:299-304). -/
def backup_keys (free_keys : List String) : List String :=
  if backup_count free_keys = 0 then []
  else free_keys.drop (free_keys.length - backup_count free_keys)

/-- `primary_free = free_keys[:-backup_count]` when the reserve is non-empty
(main.py:299-304). -/
def primary_free (free_keys : List String) : List String :=
  if backup_count free_keys = 0 then free_keys
  else free_keys.take (free_keys.length - backup_count free_keys)

/-- `primary_keys = paid_keys + primary_free` (main.py:306). -/
def primary_keys (cfg : PoolSettings) : List String :=
  cfg.paid_api_keys ++ primary_free cfg.free_api_keys

/-- `all_configured = primary_keys + backup_keys` (main.py:330). -/
def configured (cfg : PoolSettings) : List String :=
  primary_keys cfg ++ backup_keys cfg.free_api_keys

/-- The counter-reset pass of `_get_next_key` (main.py:308-313): every
configured key whose rolling window is older than 60 seconds gets its call
counter cleared and its reset time stamped to `now`. -/
def reset_usage (cfg : PoolSettings) (now : T) (usage : String → Usage T) :
    String → Usage T := fun k =>
  if k ∈ configured cfg ∧ now - (usage k).last_reset > 60 then
    { usage k with calls := 0, last_reset := now }
  else usage k

/-- Python `min(xs, key=f)`: the first element attaining the least key. -/
def py_min_by {α β : Type} [LinearOrder β] (f : α → β) : List α → Option α
  | [] => none
  | x :: xs => some (xs.foldl (fun b a => if f a < f b then a else b) x)

/-- `_report_key_cooldown` (main.py:275-278): set the key's cooldown expiry to
`now + wait_time`. -/
def report_key_cooldown (key : String) (wait_time now : T)
    (usage : String → Usage T) : String → Usage T := fun k =>
  if k = key then { usage k with cooldown_until := now + wait_time } else usage k

/-- `available_primary` (main.py:316): primary keys whose cooldown has expired,
judged on the post-reset usage map. -/
def avail_primary (cfg : PoolSettings) (now : T) (usage : String → Usage T) : List String :=
  (primary_keys cfg).filter (fun k => (reset_usage cfg now usage k).cooldown_until ≤ now)

/-- `available_backup` (main.py:317). -/
def avail_backup (cfg : PoolSettings) (now : T) (usage : String → Usage T) : List String :=
  (backup_keys cfg.free_api_keys).filter
    (fun k => (reset_usage cfg now usage k).cooldown_until ≤ now)

/-- `self.key_usage[best_key]["calls"] += 1` guarded by `if best_key:`
(main.py:332-333); an empty-string key is falsy in Python, so its counter is
not incremented. -/
def bump (u1 : String → Usage T) (bk : String) : String → Usage T := fun k =>
  if bk ≠ "" ∧ k = bk then { u1 k with calls := (u1 k).calls + 1 } else u1 k

/-- `_get_next_key` (main.py:280-334) as a pure state transformer: given the
settings, the `keys` argument, the current time and the usage map, return the
selected key (if any) and the updated usage map. -/
def get_next_key (cfg : PoolSettings) (keys : List String) (now : T)
    (usage : String → Usage T) : Option String × (String → Usage T) :=
  if keys.isEmpty then (none, usage)
  else
    let u1 := reset_usage cfg now usage
    match py_min_by (fun k => (u1 k).calls) (avail_primary cfg now usage) with
    | some bk => (some bk, bump u1 bk)
    | none =>
        match py_min_by (fun k => (u1 k).calls) (avail_backup cfg now usage) with
        | some bk => (some bk, bump u1 bk)
        | none =>
            if (configured cfg).isEmpty then (none, u1)
            else (py_min_by (fun k => (u1 k).cooldown_until) (configured cfg), u1)

/-- `ceil(0.25 * n)`, the reserve formula as claim C3 states it. -/
def ceil_quarter (n : Nat) : Nat := (n + 3) / 4

/-- Result assembly in `transcribe_full` (main.py:1029-1086):
`results = [None] * total_chunks`, then `results[idx] = result` for each
completion `(idx, result)`, in completion order. -/
def assemble_results {R : Type} (n : Nat) (completions : List (Nat × R)) :
    List (Option R) :=
  completions.foldl (fun acc p => acc.set p.1 (some p.2)) (List.replicate n none)

/-- One per-chunk result dict as consumed by the combine loop of
`transcribe_full` (main.py:1091-1100): its `text` and `error` fields.  Text is
modelled as a character list.  An unfilled results slot is `none`. -/
structure ChunkResult where
  text : List Char
  error : Bool
deriving Repr, DecidableEq

/-- `result and not result.get("error")` (main.py:1092). -/
def chunk_ok : Option ChunkResult → Bool
  | some r => !r.error
  | none => false

/-- `result.get('text', 'Unknown error') if result else 'Unknown error'`
(main.py:1096). -/
def err_txt_of : Option ChunkResult → List Char
  | some r => r.text
  | none => "Unknown error".toList

/-- `result.get("text", "")` (main.py:1093). -/
def ok_text : Option ChunkResult → List Char
  | some r => r.text
  | none => []

/-- The inline warning marker appended for a failed chunk (main.py:1100):
`f"\n\n[WARNING: A section failed to transcribe. Error: {err_txt}]"`. -/
def warning_line (err : List Char) : List Char :=
  "\n\n[WARNING: A section failed to transcribe. Error: ".toList ++ err ++ [']']

/-- The entry appended to `errors` for a failed chunk (main.py:1099):
`f"Chunk {i+1}: {err_txt}"`. -/
def error_entry (i : Nat) (err : List Char) : List Char :=
  "Chunk ".toList ++ (toString (i + 1)).toList ++ ": ".toList ++ err

/-- One step of the combine loop of `transcribe_full` (main.py:1091-1100). -/
def combine_step (acc : List Char × List (List Char)) (p : Nat × Option ChunkResult) :
    List Char × List (List Char) :=
  if chunk_ok p.2 then (acc.1 ++ "\n\n".toList ++ ok_text p.2, acc.2)
  else (acc.1 ++ warning_line (err_txt_of p.2), acc.2 ++ [error_entry p.1 (err_txt_of p.2)])

/-- The combine loop of `transcribe_full` (main.py:1088-1100): fold over the
indexed results, accumulating `full_text` and `errors`. -/
def combine_results (results : List (Option ChunkResult)) :
    List Char × List (List Char) :=
  results.enum.foldl combine_step ([], [])

/-- How a single indexed chunk appears in the final transcript: successful
text preceded by a blank line, or the inline warning marker. -/
def render_chunk (p : Nat × Option ChunkResult) : List Char :=
  if chunk_ok p.2 then "\n\n".toList ++ ok_text p.2 else warning_line (err_txt_of p.2)

/-- The whitespace characters of Python's `str.strip()` and `\s`
(ASCII range; transcripts here are ASCII). -/
def is_py_ws (c : Char) : Bool :=
  c = ' ' || c = '\t' || c = '\n' || c = '\r' || c = '\x0b' || c = '\x0c'

/-- Python `str.strip()` on a character list. -/
def py_strip (l : List Char) : List Char :=
  ((l.dropWhile is_py_ws).reverse.dropWhile is_py_ws).reverse

/-- Python `%` on floats with a positive divisor: `a - b * ⌊a / b⌋`. -/
def py_mod (a b : ℚ) : ℚ := a - b * ⌊a / b⌋

/-- Python `f"{n:02d}"`. -/
def pad2 (n : ℤ) : String := if 0 ≤ n ∧ n < 10 then "0" ++ toString n else toString n

/-- The `time_str` computation of `process_chunk` (main.py:1040-1045):
`h = int(start_sec // 3600)`, `m = int((start_sec % 3600) // 60)`,
`s = int(start_sec % 60)`, rendered as `[HH:MM:SS]` when `h > 0` and
`[MM:SS]` otherwise.  `//` and `%` already floor, and their results here are
non-negative multiples resp. remainders, so Python's `int()` truncation is
exactly the floor. -/
def format_time (start_sec : ℚ) : String :=
  let h : ℤ := ⌊start_sec / 3600⌋
  let m : ℤ := ⌊py_mod start_sec 3600 / 60⌋
  let s : ℤ := ⌊py_mod start_sec 60⌋
  if 0 < h then "[" ++ pad2 h ++ ":" ++ pad2 m ++ ":" ++ pad2 s ++ "]"
  else "[" ++ pad2 m ++ ":" ++ pad2 s ++ "]"

/-- One element of Whisper's `verbose_json` `segments` list: its `start`
seconds (a float, modelled as ℚ) and its `text`. -/
structure WhisperSegment where
  start : ℚ
  text : List Char
deriving Repr, DecidableEq

/-- One entry of `segments_data` (main.py:1047-1051): chunk-local id, rendered
timestamp, stripped text. -/
structure SegData where
  sid : Nat
  time_str : List Char
  text : List Char
deriving Repr, DecidableEq

/-- One iteration of the `segments_data` loop of `process_chunk`
(main.py:1036-1051): skip a Whisper segment whose stripped text is empty,
otherwise record `{id: s_idx, time_str: fmt(start + idx*chunk_minutes*60),
text: stripped}`. -/
def build_entry (idx chunk_minutes : Nat) (p : Nat × WhisperSegment) :
    Option SegData :=
  if py_strip p.2.text = [] then none
  else some ⟨p.1,
    (format_time (p.2.start + ((idx * chunk_minutes * 60 : Nat) : ℚ))).toList,
    py_strip p.2.text⟩

/-- The `segments_data` list of `process_chunk` (main.py:1036-1051). -/
def build_segments_data (idx chunk_minutes : Nat) (segs : List WhisperSegment) :
    List SegData :=
  segs.enum.filterMap (build_entry idx chunk_minutes)

/-- `current_speaker = "Unknown Speaker"` (main.py:799). -/
def unknown_speaker : List Char := "Unknown Speaker".toList

/-- One inserted speaker/time header:
`f"\n\n[SPEAKER] {current_speaker}\n[TIME] {s['time_str']}\n"` (main.py:810). -/
def header_chars (name time_str : List Char) : List Char :=
  "\n\n[SPEAKER] ".toList ++ name ++ "\n[TIME] ".toList ++ time_str ++ ['\n']

/-- The assembly loop of `smart_format_chunk_sync` (main.py:798-813), with the
secondary model's `speaker_changes` abstracted as the map `m`: walk the
subsegments; an id-0 subsegment with no mapped change adopts the current
speaker (the source mutates `speaker_map[0]`, modelled by threading `m1`);
whenever the id is mapped, emit a header and update the current speaker;
always append the untouched text plus one space. -/
def merge_loop : List SegData → (Nat → Option (List Char)) → List Char → List Char
  | [], _, _ => []
  | s :: rest, m, cur =>
    let m1 : Nat → Option (List Char) := fun n =>
      if s.sid = 0 ∧ m 0 = none ∧ n = 0 then some cur else m n
    match m1 s.sid with
    | some name =>
        header_chars name s.time_str ++ s.text ++ [' '] ++ merge_loop rest m1 name
    | none => s.text ++ [' '] ++ merge_loop rest m1 cur

/-- Python `final_text.replace("\n ", "\n")` (main.py:814): left-to-right,
non-overlapping, resuming after each replacement. -/
def replace_nl_space : List Char → List Char
  | [] => []
  | [c] => [c]
  | c :: d :: rest =>
    if c = '\n' ∧ d = ' ' then '\n' :: replace_nl_space rest
    else c :: replace_nl_space (d :: rest)

/-- The deterministic assembly stage of `smart_format_chunk_sync`
(main.py:798-815): the merge loop followed by
`final_text.replace("\n ", "\n").strip()`. -/
def smart_format_assemble (segs : List SegData) (m : Nat → Option (List Char)) :
    List Char :=
  py_strip (replace_nl_space (merge_loop segs m unknown_speaker))

/-- Split a character list into lines at `'\n'` (separators dropped, empty
lines kept; the result is always non-empty). -/
def lines_of : List Char → List (List Char)
  | [] => [[]]
  | c :: rest =>
    if c = '\n' then [] :: lines_of rest
    else
      match lines_of rest with
      | ln :: lns => (c :: ln) :: lns
      | [] => [[c]]

/-- Does `l` start with the pattern `pat`? -/
def starts_with_chars : List Char → List Char → Bool
  | [], _ => true
  | _ :: _, [] => false
  | p :: ps, c :: cs => p = c && starts_with_chars ps cs

/-- A line of the merged output that is transcript content: neither an
inserted `[SPEAKER]`/`[TIME]` header line nor a blank separator line. -/
def keep_line (ln : List Char) : Bool :=
  !(starts_with_chars "[SPEAKER]".toList ln) &&
    !(starts_with_chars "[TIME]".toList ln) && !ln.isEmpty

/-- Remove the inserted speaker/time header lines (and blank separator lines)
from a merged transcript, keeping the content lines. -/
def remove_header_lines (l : List Char) : List Char :=
  ((lines_of l).filter keep_line).flatten

/-- `true` iff the list has no `"\n "` occurrence, i.e. Python's
`replace("\n ", "\n")` is the identity on it. -/
def no_nl_space : List Char → Bool
  | [] => true
  | c :: rest => !(c == '\n' && rest.head? == some ' ') && no_nl_space rest

/-- The header decisions of the merge loop, one per subsegment: the name
emitted before it, if any (proof-side companion of `merge_loop`). -/
def resolve_headers : List SegData → (Nat → Option (List Char)) → List Char →
    List (Option (List Char) × SegData)
  | [], _, _ => []
  | s :: rest, m, cur =>
    let m1 : Nat → Option (List Char) := fun n =>
      if s.sid = 0 ∧ m 0 = none ∧ n = 0 then some cur else m n
    match m1 s.sid with
    | some name => (some name, s) :: resolve_headers rest m1 name
    | none => (none, s) :: resolve_headers rest m1 cur

/-- The characters one resolved subsegment contributes to the merge output. -/
def piece_of (p : Option (List Char) × SegData) : List Char :=
  (match p.1 with
   | some name => header_chars name p.2.time_str
   | none => []) ++ p.2.text ++ [' ']

/-- The merge output with the very last trailing space removed: the form the
final `strip()` leaves behind (up to the leading blank lines). -/
def pieces_trim : List (Option (List Char) × SegData) → List Char
  | [] => []
  | [p] =>
    (match p.1 with
     | some name => header_chars name p.2.time_str
     | none => []) ++ p.2.text
  | p :: q :: rest => piece_of p ++ pieces_trim (q :: rest)

/-- The hypotheses claim C1 needs about one subsegment's text: non-empty,
newline-free, not starting or ending in whitespace (true of the stripped
Whisper texts fed in by `process_chunk`), and not starting with a header
marker. -/
def good_text (t : List Char) : Prop :=
  t ≠ [] ∧ '\n' ∉ t ∧
    t.head?.all (fun c => !is_py_ws c) = true ∧
    t.getLast?.all (fun c => !is_py_ws c) = true ∧
    starts_with_chars "[SPEAKER]".toList t = false ∧
    starts_with_chars "[TIME]".toList t = false

instance good_text_decidable (t : List Char) : Decidable (good_text t) := by
  unfold good_text
  infer_instance

/-- The first line of `r` is either blank or a kept content line (proof-side
invariant used to peel subsegments off the merged output). -/
def good_head (r : List Char) : Prop :=
  (lines_of r).headI = [] ∨ keep_line ((lines_of r).headI) = true

/-- Python `str.lower` on one character (ASCII letters; the transcripts and
patterns here are ASCII). -/
def py_to_lower (c : Char) : Char :=
  if c = 'A' then 'a' else if c = 'B' then 'b' else if c = 'C' then 'c'
  else if c = 'D' then 'd' else if c = 'E' then 'e' else if c = 'F' then 'f'
  else if c = 'G' then 'g' else if c = 'H' then 'h' else if c = 'I' then 'i'
  else if c = 'J' then 'j' else if c = 'K' then 'k' else if c = 'L' then 'l'
  else if c = 'M' then 'm' else if c = 'N' then 'n' else if c = 'O' then 'o'
  else if c = 'P' then 'p' else if c = 'Q' then 'q' else if c = 'R' then 'r'
  else if c = 'S' then 's' else if c = 'T' then 't' else if c = 'U' then 'u'
  else if c = 'V' then 'v' else if c = 'W' then 'w' else if c = 'X' then 'x'
  else if c = 'Y' then 'y' else if c = 'Z' then 'z' else c

/-- `\w` of Python `re` (ASCII range): alphanumeric or underscore. -/
def is_word_char (c : Char) : Bool := c.isAlphanum || c == '_'

/-- Case-insensitive prefix test, as `re.IGNORECASE` matching of a literal
word. -/
def ci_starts : List Char → List Char → Bool
  | [], _ => true
  | _ :: _, [] => false
  | p :: ps, c :: cs => (py_to_lower c == py_to_lower p) && ci_starts ps cs

/-- One pass of `re.sub(rf"\b{pat}\b", canon, text, flags=re.IGNORECASE)` for
a literal word `pat` (all word characters): scan left to right; at a position
with no word character before it, a case-insensitive occurrence of `pat`
followed by a non-word character (or the end) is replaced by `canon`, and
scanning resumes after the matched input segment.  `fuel` bounds the
recursion (`fuel = length` always suffices). -/
def replace_word_ci_go (pat canon : List Char) : Nat → Bool → List Char → List Char
  | 0, _, l => l
  | _ + 1, _, [] => []
  | fuel + 1, prevW, c :: rest =>
    if pat ≠ [] ∧ ci_starts pat (c :: rest) = true ∧ prevW = false ∧
        (((c :: rest).drop pat.length).head?.all (fun d => !is_word_char d)) = true then
      canon ++ replace_word_ci_go pat canon fuel
        ((((c :: rest).take pat.length).getLast?).elim prevW is_word_char)
        ((c :: rest).drop pat.length)
    else c :: replace_word_ci_go pat canon fuel (is_word_char c) rest

/-- One `re.sub(rf"\b{pat}\b", canon, text, flags=re.IGNORECASE)` call of
`post_process_transcript` (main.py:948-956). -/
def replace_word_ci (pat canon l : List Char) : List Char :=
  replace_word_ci_go pat canon l.length false l

/-- The `financial_fixes` dict of `post_process_transcript` (main.py:941-947),
in insertion order. -/
def financial_fixes : List (List Char × List Char) :=
  [("ebitda".toList, "EBITDA".toList), ("roe".toList, "ROE".toList),
   ("roa".toList, "ROA".toList), ("roce".toList, "ROCE".toList),
   ("cagr".toList, "CAGR".toList), ("pat".toList, "PAT".toList),
   ("pbt".toList, "PBT".toList), ("eps".toList, "EPS".toList),
   ("nav".toList, "NAV".toList), ("aum".toList, "AUM".toList),
   ("npa".toList, "NPA".toList), ("yoy".toList, "YoY".toList),
   ("qoq".toList, "QoQ".toList), ("capex".toList, "Capex".toList),
   ("opex".toList, "Opex".toList)]

/-- The financial-acronym loop of `post_process_transcript`
(main.py:948-956). -/
def financial_pass (l : List Char) : List Char :=
  financial_fixes.foldl (fun acc p => replace_word_ci p.1 p.2 acc) l

/-- Python `text.replace(old, "")` (left-to-right, non-overlapping,
resuming after each deleted occurrence), with fuel. -/
def py_replace_del_go (old : List Char) : Nat → List Char → List Char
  | 0, l => l
  | _ + 1, [] => []
  | fuel + 1, c :: rest =>
    if old ≠ [] ∧ starts_with_chars old (c :: rest) = true then
      py_replace_del_go old fuel ((c :: rest).drop old.length)
    else c :: py_replace_del_go old fuel rest

/-- `text.replace(old, "")` as used by `post_process_transcript`
(main.py:958-966). -/
def py_replace_del (old l : List Char) : List Char := py_replace_del_go old l.length l

/-- The anti-hallucination prompt sentence deleted by
`post_process_transcript` (main.py:959). -/
def halluc1 : List Char :=
  "Lakh, Crore, EBITDA, YoY, QoQ, PAT, Margins, Revenue.".toList

/-- Same sentence without the final period (main.py:960). -/
def halluc2 : List Char :=
  "Lakh, Crore, EBITDA, YoY, QoQ, PAT, Margins, Revenue".toList

/-- `re.sub(r'(Speaker\s*\d+\s*:)', ...)` matching at the head of `l`:
returns the matched characters and the remainder. -/
def match_speaker_colon (l : List Char) : Option (List Char × List Char) :=
  if starts_with_chars "Speaker".toList l = true then
    let r1 := l.drop 7
    let ws1 := r1.takeWhile is_py_ws
    let r2 := r1.dropWhile is_py_ws
    let ds := r2.takeWhile Char.isDigit
    let r3 := r2.dropWhile Char.isDigit
    if ds = [] then none
    else
      let ws2 := r3.takeWhile is_py_ws
      let r4 := r3.dropWhile is_py_ws
      match r4 with
      | ':' :: r5 => some ("Speaker".toList ++ ws1 ++ ds ++ ws2 ++ [':'], r5)
      | _ => none
  else none

/-- `re.sub(r'(Speaker\s*\d+\s*:)', r'\n\n\1', text)` (main.py:936): insert a
blank line before each speaker tag. -/
def speaker_break_go : Nat → List Char → List Char
  | 0, l => l
  | _ + 1, [] => []
  | fuel + 1, c :: rest =>
    match match_speaker_colon (c :: rest) with
    | some (mt, r5) => '\n' :: '\n' :: (mt ++ speaker_break_go fuel r5)
    | none => c :: speaker_break_go fuel rest

def speaker_break_pass (l : List Char) : List Char := speaker_break_go l.length l

/-- `re.sub(r'\n{3,}', '\n\n', text)` (main.py:938): collapse runs of three or
more newlines. -/
def collapse_newlines_go : Nat → List Char → List Char
  | 0, l => l
  | _ + 1, [] => []
  | fuel + 1, '\n' :: '\n' :: '\n' :: rest =>
    '\n' :: '\n' :: collapse_newlines_go fuel (rest.dropWhile (· == '\n'))
  | fuel + 1, c :: rest => c :: collapse_newlines_go fuel rest

def collapse_newlines (l : List Char) : List Char := collapse_newlines_go l.length l

/-- `re.sub(r'speaker\s*(\d+)', lambda m: f'Speaker {m.group(1)}', text,
flags=re.IGNORECASE)` matching at the head of `l`. -/
def match_speaker_num (l : List Char) : Option (List Char × List Char) :=
  if ci_starts "speaker".toList l = true then
    let r1 := l.drop 7
    let r2 := r1.dropWhile is_py_ws
    let ds := r2.takeWhile Char.isDigit
    let r3 := r2.dropWhile Char.isDigit
    if ds = [] then none else some (ds, r3)
  else none

/-- The speaker-capitalisation pass of `post_process_transcript`
(main.py:940). -/
def speaker_cap_go : Nat → List Char → List Char
  | 0, l => l
  | _ + 1, [] => []
  | fuel + 1, c :: rest =>
    match match_speaker_num (c :: rest) with
    | some (ds, r3) => "Speaker ".toList ++ ds ++ speaker_cap_go fuel r3
    | none => c :: speaker_cap_go fuel rest

def speaker_cap_pass (l : List Char) : List Char := speaker_cap_go l.length l

/-- `post_process_transcript` (main.py:933-962): speaker-tag formatting,
newline collapsing, speaker capitalisation, financial-acronym
canonicalisation, hallucinated-prompt deletion, context-keyword deletion,
final `strip()`. -/
def post_process_transcript (text kw : List Char) : List Char :=
  let t1 := speaker_break_pass text
  let t2 := collapse_newlines t1
  let t3 := speaker_cap_pass t2
  let t4 := financial_pass t3
  let t5 := py_replace_del halluc2 (py_replace_del halluc1 t4)
  let t6 := if kw = [] then t5
    else py_replace_del (kw ++ ['.']) (py_replace_del (kw ++ [',']) (py_replace_del kw t5))
  py_strip t6

/-- `\b`-boundary before position `i`: at the start of the scan `prevW`
records whether the previous character is a word character; inside the string
it is read off the prefix. -/
def word_bound_before (prevW : Bool) (l : List Char) (i : Nat) : Prop :=
  if i = 0 then prevW = false
  else ((l.take i).getLast?.all (fun d => !is_word_char d)) = true

/-- A case-insensitive occurrence of the word `pat` at position `i` of `l`
with `\b` boundaries on both sides (`prevW` describing what precedes `l`). -/
def ci_occurs_at (prevW : Bool) (pat l : List Char) (i : Nat) : Prop :=
  ci_starts pat (l.drop i) = true ∧ word_bound_before prevW l i ∧
    ((l.drop (i + pat.length)).head?.all (fun d => !is_word_char d)) = true

/-- A boundary-delimited case-insensitive occurrence of `pat` in the string
`l` (nothing precedes `l`). -/
def boundary_ci_occ (pat l : List Char) (i : Nat) : Prop := ci_occurs_at false pat l i

/-- Glue a non-empty list of parts with a separator: `glue_parts sep [p0, ..., pk]
= p0 ++ sep ++ p1 ++ sep ++ ... ++ pk`.  Used to state what `str.replace(old, "")`
deletes: the input decomposes into occurrence-free parts glued by `old`. -/
def glue_parts (sep : List Char) : List (List Char) → List Char
  | [] => []
  | [p] => p
  | p :: q :: ps => p ++ sep ++ glue_parts sep (q :: ps)

/-! ### Basic facts about the pool helpers -/

theorem primary_free_append_backup (free : List String) :
    primary_free free ++ backup_keys free = free := by
  unfold primary_free backup_keys
  by_cases h : backup_count free = 0 <;> simp [h, List.take_append_drop]

theorem configured_eq (cfg : PoolSettings) :
    configured cfg = cfg.paid_api_keys ++ cfg.free_api_keys := by
  unfold configured primary_keys
  rw [List.append_assoc, primary_free_append_backup]

theorem reset_usage_cooldown (cfg : PoolSettings) (now : T) (usage : String → Usage T)
    (k : String) : (reset_usage cfg now usage k).cooldown_until = (usage k).cooldown_until := by
  unfold reset_usage
  split <;> rfl

/-- The foldl inside `py_min_by` returns an element of the list that is minimal. -/
theorem py_min_by_foldl_spec {α β : Type} [LinearOrder β] (f : α → β) :
    ∀ (xs : List α) (b : α),
      (xs.foldl (fun b a => if f a < f b then a else b) b = b ∨
        xs.foldl (fun b a => if f a < f b then a else b) b ∈ xs) ∧
      f (xs.foldl (fun b a => if f a < f b then a else b) b) ≤ f b ∧
      ∀ a ∈ xs, f (xs.foldl (fun b a => if f a < f b then a else b) b) ≤ f a := by
  intro xs
  induction xs with
  | nil => intro b; exact ⟨Or.inl rfl, le_refl _, by simp⟩
  | cons x xs ih =>
    intro b
    simp only [List.foldl_cons]
    rcases ih (if f x < f b then x else b) with ⟨hmem, hle, hall⟩
    constructor
    · rcases hmem with h | h
      · rw [h]
        by_cases hx : f x < f b
        · simp [hx]
        · simp [hx]
      · exact Or.inr (List.mem_cons_of_mem _ h)
    constructor
    · refine le_trans hle ?_
      by_cases hx : f x < f b
      · simp [hx]; exact le_of_lt hx
      · simp [hx]
    · intro a ha
      rcases List.mem_cons.mp ha with rfl | ha
      · refine le_trans hle ?_
        by_cases hx : f a < f b
        · simp [hx]
        · simp [hx]; exact le_of_not_lt hx
      · exact hall a ha

theorem py_min_by_mem {α β : Type} [LinearOrder β] (f : α → β) {l : List α} {m : α}
    (h : py_min_by f l = some m) : m ∈ l := by
  cases l with
  | nil => simp [py_min_by] at h
  | cons x xs =>
    simp only [py_min_by, Option.some.injEq] at h
    rcases (py_min_by_foldl_spec f xs x).1 with h1 | h1
    · rw [← h, h1]; exact List.mem_cons_self _ _
    · rw [← h]; exact List.mem_cons_of_mem _ h1

theorem py_min_by_le {α β : Type} [LinearOrder β] (f : α → β) {l : List α} {m : α}
    (h : py_min_by f l = some m) : ∀ a ∈ l, f m ≤ f a := by
  cases l with
  | nil => simp [py_min_by] at h
  | cons x xs =>
    simp only [py_min_by, Option.some.injEq] at h
    intro a ha
    rcases List.mem_cons.mp ha with rfl | ha
    · rw [← h]; exact (py_min_by_foldl_spec f xs a).2.1
    · rw [← h]; exact (py_min_by_foldl_spec f xs x).2.2 a ha

theorem py_min_by_eq_none_iff {α β : Type} [LinearOrder β] (f : α → β) (l : List α) :
    py_min_by f l = none ↔ l = [] := by
  cases l <;> simp [py_min_by]

theorem mem_avail_primary {cfg : PoolSettings} {now : T} {usage : String → Usage T}
    {k : String} : k ∈ avail_primary cfg now usage ↔
      k ∈ primary_keys cfg ∧ (usage k).cooldown_until ≤ now := by
  simp [avail_primary, List.mem_filter, reset_usage_cooldown]

theorem mem_avail_backup {cfg : PoolSettings} {now : T} {usage : String → Usage T}
    {k : String} : k ∈ avail_backup cfg now usage ↔
      k ∈ backup_keys cfg.free_api_keys ∧ (usage k).cooldown_until ≤ now := by
  simp [avail_backup, List.mem_filter, reset_usage_cooldown]

omit [LinearOrderedRing T] in
theorem bump_cooldown (u1 : String → Usage T) (bk k : String) :
    (bump u1 bk k).cooldown_until = (u1 k).cooldown_until := by
  unfold bump; split <;> rfl

theorem gnk_empty (cfg : PoolSettings) (now : T) (usage : String → Usage T)
    {keys : List String} (h : keys = []) :
    get_next_key cfg keys now usage = (none, usage) := by
  subst h; rfl

theorem gnk_primary (cfg : PoolSettings) (now : T) (usage : String → Usage T)
    {keys : List String} {bk : String} (h : keys ≠ [])
    (hm : py_min_by (fun k => (reset_usage cfg now usage k).calls)
        (avail_primary cfg now usage) = some bk) :
    get_next_key cfg keys now usage = (some bk, bump (reset_usage cfg now usage) bk) := by
  cases keys with
  | nil => exact absurd rfl h
  | cons a t =>
    simp only [get_next_key, List.isEmpty_cons, Bool.false_eq_true, if_false]
    rw [hm]

theorem gnk_backup (cfg : PoolSettings) (now : T) (usage : String → Usage T)
    {keys : List String} {bk : String} (h : keys ≠ [])
    (hp : py_min_by (fun k => (reset_usage cfg now usage k).calls)
        (avail_primary cfg now usage) = none)
    (hm : py_min_by (fun k => (reset_usage cfg now usage k).calls)
        (avail_backup cfg now usage) = some bk) :
    get_next_key cfg keys now usage = (some bk, bump (reset_usage cfg now usage) bk) := by
  cases keys with
  | nil => exact absurd rfl h
  | cons a t =>
    simp only [get_next_key, List.isEmpty_cons, Bool.false_eq_true, if_false]
    rw [hp, hm]

theorem gnk_fallback (cfg : PoolSettings) (now : T) (usage : String → Usage T)
    {keys : List String} (h : keys ≠ [])
    (hp : py_min_by (fun k => (reset_usage cfg now usage k).calls)
        (avail_primary cfg now usage) = none)
    (hb : py_min_by (fun k => (reset_usage cfg now usage k).calls)
        (avail_backup cfg now usage) = none)
    (hc : configured cfg ≠ []) :
    get_next_key cfg keys now usage =
      (py_min_by (fun k => (reset_usage cfg now usage k).cooldown_until) (configured cfg),
        reset_usage cfg now usage) := by
  cases keys with
  | nil => exact absurd rfl h
  | cons a t =>
    simp only [get_next_key, List.isEmpty_cons, Bool.false_eq_true, if_false]
    rw [hp, hb]
    have : (configured cfg).isEmpty = false := by
      cases hx : configured cfg with
      | nil => exact absurd hx hc
      | cons x xs => rfl
    simp [this]

theorem gnk_fallback_none (cfg : PoolSettings) (now : T) (usage : String → Usage T)
    {keys : List String} (h : keys ≠ [])
    (hp : py_min_by (fun k => (reset_usage cfg now usage k).calls)
        (avail_primary cfg now usage) = none)
    (hb : py_min_by (fun k => (reset_usage cfg now usage k).calls)
        (avail_backup cfg now usage) = none)
    (hc : configured cfg = []) :
    get_next_key cfg keys now usage = (none, reset_usage cfg now usage) := by
  cases keys with
  | nil => exact absurd rfl h
  | cons a t =>
    simp only [get_next_key, List.isEmpty_cons, Bool.false_eq_true, if_false]
    rw [hp, hb]
    simp [hc]

/-- Every outcome of `get_next_key`: untouched state, reset-only state, or a
reset state with one bumped key that is also the returned key. -/
theorem gnk_snd_cases (cfg : PoolSettings) (keys : List String) (now : T)
    (usage : String → Usage T) :
    (get_next_key cfg keys now usage).2 = usage ∨
      (get_next_key cfg keys now usage).2 = reset_usage cfg now usage ∨
      ∃ bk, (get_next_key cfg keys now usage).1 = some bk ∧
        (get_next_key cfg keys now usage).2 = bump (reset_usage cfg now usage) bk := by
  by_cases h : keys = []
  · rw [gnk_empty cfg now usage h]; exact Or.inl rfl
  cases hp : py_min_by (fun k => (reset_usage cfg now usage k).calls)
      (avail_primary cfg now usage) with
  | some bk => rw [gnk_primary cfg now usage h hp]; exact Or.inr (Or.inr ⟨bk, rfl, rfl⟩)
  | none =>
    cases hb : py_min_by (fun k => (reset_usage cfg now usage k).calls)
        (avail_backup cfg now usage) with
    | some bk => rw [gnk_backup cfg now usage h hp hb]; exact Or.inr (Or.inr ⟨bk, rfl, rfl⟩)
    | none =>
      by_cases hc : configured cfg = []
      · rw [gnk_fallback_none cfg now usage h hp hb hc]; exact Or.inr (Or.inl rfl)
      · rw [gnk_fallback cfg now usage h hp hb hc]; exact Or.inr (Or.inl rfl)

theorem backup_keys_subset (free : List String) : backup_keys free ⊆ free := by
  unfold backup_keys
  split
  · simp
  · exact List.drop_subset _ _

theorem primary_free_disjoint_backup {free : List String} (h : free.Nodup) :
    ∀ a ∈ primary_free free, a ∉ backup_keys free := by
  unfold primary_free backup_keys
  by_cases hb : backup_count free = 0
  · simp [hb]
  · simp only [hb, if_false]
    have := List.take_append_drop (free.length - backup_count free) free
    rw [← this] at h
    exact fun a ha => (List.disjoint_of_nodup_append h) ha

/-! ### Claim C3: size of the backup reserve -/

/-- C3 as stated is false: with five free keys the code reserves
`max(1, ⌊5/4⌋) = 1` key, while `ceil(0.25 × 5) = 2`. -/
theorem C3_counterexample :
    backup_count ["k1", "k2", "k3", "k4", "k5"] = 1 ∧
      ceil_quarter (["k1", "k2", "k3", "k4", "k5"] : List String).length = 2 ∧
      backup_count ["k1", "k2", "k3", "k4", "k5"] ≠
        ceil_quarter (["k1", "k2", "k3", "k4", "k5"] : List String).length := by
  decide

/-- C3 amended: the reserve is `0` when at most one free key exists and
`max(1, ⌊0.25 × |free|⌋)` otherwise (which agrees with `ceil(0.25 × |free|)`
for pools of size up to 4 but not, e.g., size 5); in particular a pool of
size 4 reserves 1 key, size 1 reserves 0, and size 2 reserves 1. -/
theorem C3_backup_reserve_size :
    (∀ free : List String,
        backup_count free = if free.length ≤ 1 then 0 else max 1 (free.length / 4)) ∧
      backup_count ["a", "b", "c", "d"] = 1 ∧
      backup_count ["a"] = 0 ∧
      backup_count ["a", "b"] = 1 := by
  refine ⟨?_, by decide, by decide, by decide⟩
  intro free
  unfold backup_count
  rcases free with _ | ⟨x, rest⟩
  · simp
  · simp only [List.isEmpty_cons, Bool.false_eq_true, if_false, List.length_cons]
    have hlen : (x :: rest).length = rest.length + 1 := by simp
    by_cases h1 : rest.length = 0
    · simp [h1]
    · have h2 : ¬ rest.length + 1 ≤ 1 := by omega
      simp only [h2, if_false]
      have h3 : ¬ rest.length + 1 ≤ max 1 ((rest.length + 1) / 4) := by
        have : (rest.length + 1) / 4 ≤ rest.length := by omega
        omega
      simp [h3]

/-! ### Claim C4: primary-first, least-loaded selection -/

/-- C4: whenever at least one primary credential (paid or primary-free) is out
of cooldown, `_get_next_key` returns a primary credential that is out of
cooldown and has the minimum rolling call count among the eligible primaries;
for a duplicate-free configuration it is never a backup-reserve key. -/
theorem C4_primary_first_least_loaded (cfg : PoolSettings) (keys : List String)
    (now : T) (usage : String → Usage T) (hkeys : keys ≠ [])
    (havail : ∃ k ∈ primary_keys cfg, (usage k).cooldown_until ≤ now) :
    ∃ bk, (get_next_key cfg keys now usage).1 = some bk ∧
      bk ∈ primary_keys cfg ∧
      (usage bk).cooldown_until ≤ now ∧
      (∀ k ∈ primary_keys cfg, (usage k).cooldown_until ≤ now →
        (reset_usage cfg now usage bk).calls ≤ (reset_usage cfg now usage k).calls) ∧
      ((cfg.paid_api_keys ++ cfg.free_api_keys).Nodup →
        bk ∉ backup_keys cfg.free_api_keys) := by
  obtain ⟨k0, hk0, hcd0⟩ := havail
  have hk0' : k0 ∈ avail_primary cfg now usage := mem_avail_primary.mpr ⟨hk0, hcd0⟩
  cases hp : py_min_by (fun k => (reset_usage cfg now usage k).calls)
      (avail_primary cfg now usage) with
  | none =>
    rw [py_min_by_eq_none_iff] at hp
    rw [hp] at hk0'
    exact absurd hk0' (List.not_mem_nil k0)
  | some bk =>
    have hresult := gnk_primary cfg now usage hkeys hp
    have hmem := py_min_by_mem _ hp
    obtain ⟨hbkp, hbkcd⟩ := mem_avail_primary.mp hmem
    refine ⟨bk, by rw [hresult], hbkp, hbkcd, ?_, ?_⟩
    · intro k hk hkcd
      exact py_min_by_le _ hp k (mem_avail_primary.mpr ⟨hk, hkcd⟩)
    · intro hnd
      have hfree : cfg.free_api_keys.Nodup := List.Nodup.of_append_right hnd
      rcases List.mem_append.mp hbkp with hpaid | hpf
      · intro hbkup
        exact (List.disjoint_of_nodup_append hnd) hpaid
          (backup_keys_subset cfg.free_api_keys hbkup)
      · exact primary_free_disjoint_backup hfree bk hpf

/-- Witness for C4 at a concrete pool: one paid key, two free keys, paid key
loaded more heavily than the free primary. -/
theorem C4_witness :
    (["P", "F1", "F2"] : List String) ≠ [] ∧
      (∃ k ∈ primary_keys ⟨["P"], ["F1", "F2"]⟩,
        ((fun k => if k = "P" then (⟨5, 0, 0⟩ : Usage ℤ) else ⟨1, 0, 0⟩) k).cooldown_until ≤ (10 : ℤ)) ∧
      ∃ bk, (get_next_key ⟨["P"], ["F1", "F2"]⟩ ["P", "F1", "F2"] (10 : ℤ)
          (fun k => if k = "P" then (⟨5, 0, 0⟩ : Usage ℤ) else ⟨1, 0, 0⟩)).1 = some bk ∧
        bk ∈ primary_keys ⟨["P"], ["F1", "F2"]⟩ ∧
        ((fun k => if k = "P" then (⟨5, 0, 0⟩ : Usage ℤ) else ⟨1, 0, 0⟩) bk).cooldown_until ≤ (10 : ℤ) ∧
        (∀ k ∈ primary_keys ⟨["P"], ["F1", "F2"]⟩,
          ((fun k => if k = "P" then (⟨5, 0, 0⟩ : Usage ℤ) else ⟨1, 0, 0⟩) k).cooldown_until ≤ (10 : ℤ) →
          (reset_usage ⟨["P"], ["F1", "F2"]⟩ (10 : ℤ)
              (fun k => if k = "P" then (⟨5, 0, 0⟩ : Usage ℤ) else ⟨1, 0, 0⟩) bk).calls ≤
            (reset_usage ⟨["P"], ["F1", "F2"]⟩ (10 : ℤ)
              (fun k => if k = "P" then (⟨5, 0, 0⟩ : Usage ℤ) else ⟨1, 0, 0⟩) k).calls) ∧
        ((["P"] ++ ["F1", "F2"] : List String).Nodup →
          bk ∉ backup_keys ["F1", "F2"]) :=
  ⟨by decide, by decide,
    C4_primary_first_least_loaded ⟨["P"], ["F1", "F2"]⟩ ["P", "F1", "F2"] (10 : ℤ)
      (fun k => if k = "P" then (⟨5, 0, 0⟩ : Usage ℤ) else ⟨1, 0, 0⟩)
      (by decide) (by decide)⟩

/-! ### Claim C5: all-in-cooldown fallback -/

/-- C5: `_get_next_key` returns `none` exactly when no credential is
configured, and when every configured credential is in cooldown it returns the
one whose cooldown expires soonest. -/
theorem C5_exhausted_returns_soonest (cfg : PoolSettings) (keys : List String)
    (now : T) (usage : String → Usage T)
    (hkeys : keys = cfg.paid_api_keys ++ cfg.free_api_keys) :
    ((get_next_key cfg keys now usage).1 = none ↔
      cfg.paid_api_keys ++ cfg.free_api_keys = []) ∧
    ((∀ k ∈ configured cfg, now < (usage k).cooldown_until) → configured cfg ≠ [] →
      ∃ bk, (get_next_key cfg keys now usage).1 = some bk ∧ bk ∈ configured cfg ∧
        ∀ k ∈ configured cfg, (usage bk).cooldown_until ≤ (usage k).cooldown_until) := by
  constructor
  · by_cases hn : cfg.paid_api_keys ++ cfg.free_api_keys = []
    · rw [hkeys, gnk_empty cfg now usage hn]
      simpa using hn
    · have hk : keys ≠ [] := by rw [hkeys]; exact hn
      simp only [hn, iff_false]
      cases hp : py_min_by (fun k => (reset_usage cfg now usage k).calls)
          (avail_primary cfg now usage) with
      | some bk => rw [gnk_primary cfg now usage hk hp]; simp
      | none =>
        cases hb : py_min_by (fun k => (reset_usage cfg now usage k).calls)
            (avail_backup cfg now usage) with
        | some bk => rw [gnk_backup cfg now usage hk hp hb]; simp
        | none =>
          have hc : configured cfg ≠ [] := by rw [configured_eq]; exact hn
          rw [gnk_fallback cfg now usage hk hp hb hc]
          simp only
          intro hnone
          rw [py_min_by_eq_none_iff] at hnone
          exact hc hnone
  · intro hall hne
    have hk : keys ≠ [] := by
      rw [hkeys, ← configured_eq]; exact hne
    have hp : py_min_by (fun k => (reset_usage cfg now usage k).calls)
        (avail_primary cfg now usage) = none := by
      rw [py_min_by_eq_none_iff]
      cases hq : avail_primary cfg now usage with
      | nil => rfl
      | cons x xs =>
        have : x ∈ avail_primary cfg now usage := by rw [hq]; exact List.mem_cons_self _ _
        obtain ⟨hxm, hxcd⟩ := mem_avail_primary.mp this
        have := hall x (List.mem_append_left _ hxm)
        exact absurd hxcd (not_le.mpr this)
    have hb : py_min_by (fun k => (reset_usage cfg now usage k).calls)
        (avail_backup cfg now usage) = none := by
      rw [py_min_by_eq_none_iff]
      cases hq : avail_backup cfg now usage with
      | nil => rfl
      | cons x xs =>
        have : x ∈ avail_backup cfg now usage := by rw [hq]; exact List.mem_cons_self _ _
        obtain ⟨hxm, hxcd⟩ := mem_avail_backup.mp this
        have := hall x (List.mem_append_right _ hxm)
        exact absurd hxcd (not_le.mpr this)
    rw [gnk_fallback cfg now usage hk hp hb hne]
    cases hm : py_min_by (fun k => (reset_usage cfg now usage k).cooldown_until)
        (configured cfg) with
    | none =>
      rw [py_min_by_eq_none_iff] at hm
      exact absurd hm hne
    | some bk =>
      refine ⟨bk, by simp [hm], py_min_by_mem _ hm, ?_⟩
      intro k hkm
      have := py_min_by_le _ hm k hkm
      rwa [reset_usage_cooldown, reset_usage_cooldown] at this
/-- Witness for C5: single free key in cooldown until time 9, queried at
time 3. -/
theorem C5_witness :
    (["A"] : List String) = (⟨[], ["A"]⟩ : PoolSettings).paid_api_keys ++
        (⟨[], ["A"]⟩ : PoolSettings).free_api_keys ∧
      (((get_next_key ⟨[], ["A"]⟩ ["A"] (3 : ℤ) (fun _ => ⟨0, 0, 9⟩)).1 = none ↔
        (⟨[], ["A"]⟩ : PoolSettings).paid_api_keys ++
          (⟨[], ["A"]⟩ : PoolSettings).free_api_keys = []) ∧
      ((∀ k ∈ configured ⟨[], ["A"]⟩, (3 : ℤ) < ((fun _ => (⟨0, 0, 9⟩ : Usage ℤ)) k).cooldown_until) →
        configured ⟨[], ["A"]⟩ ≠ [] →
        ∃ bk, (get_next_key ⟨[], ["A"]⟩ ["A"] (3 : ℤ) (fun _ => ⟨0, 0, 9⟩)).1 = some bk ∧
          bk ∈ configured ⟨[], ["A"]⟩ ∧
          ∀ k ∈ configured ⟨[], ["A"]⟩,
            ((fun _ => (⟨0, 0, 9⟩ : Usage ℤ)) bk).cooldown_until ≤
              ((fun _ => (⟨0, 0, 9⟩ : Usage ℤ)) k).cooldown_until)) :=
  ⟨by decide, C5_exhausted_returns_soonest ⟨[], ["A"]⟩ ["A"] (3 : ℤ) (fun _ => ⟨0, 0, 9⟩) (by decide)⟩

/-! ### Claim C6: cooldown blocks re-selection -/

/-- C6 as stated is false: with a single configured key `"A"` put in cooldown
for 5 seconds at time 0, an acquisition at time 3 (before expiry) still
returns `"A"` via the all-in-cooldown fallback. -/
theorem C6_counterexample :
    (get_next_key ⟨[], ["A"]⟩ ["A"] (3 : ℤ)
        (report_key_cooldown "A" 5 0 (fun _ => ⟨0, 0, 0⟩))).1 = some "A" ∧
      (3 : ℤ) < (report_key_cooldown "A" (5 : ℤ) 0 (fun _ => ⟨0, 0, 0⟩) "A").cooldown_until := by
  constructor
  · rfl
  · decide

/-- C6 amended: after `_report_key_cooldown(A, d)` at time `now₀`, an
acquisition at any time before `now₀ + d` never returns `A` as long as some
configured credential is out of cooldown; only the all-in-cooldown fallback
(whose callers re-check the cooldown and sleep) may still hand back `A`. -/
theorem C6_cooldown_blocks_selection (cfg : PoolSettings) (keys : List String)
    (now₀ now d : T) (A : String) (usage : String → Usage T)
    (helapsed : now < now₀ + d)
    (havail : ∃ k ∈ configured cfg,
      (report_key_cooldown A d now₀ usage k).cooldown_until ≤ now) :
    (get_next_key cfg keys now (report_key_cooldown A d now₀ usage)).1 ≠ some A := by
  set u := report_key_cooldown A d now₀ usage with hu
  have huA : (u A).cooldown_until = now₀ + d := by
    rw [hu]; simp [report_key_cooldown]
  have hAnot : ¬ (u A).cooldown_until ≤ now := by
    rw [huA]; exact not_le.mpr helapsed
  by_cases hk : keys = []
  · rw [gnk_empty cfg now u hk]; simp
  obtain ⟨k0, hk0, hcd0⟩ := havail
  cases hp : py_min_by (fun k => (reset_usage cfg now u k).calls)
      (avail_primary cfg now u) with
  | some bk =>
    rw [gnk_primary cfg now u hk hp]
    simp only [ne_eq, Option.some.injEq]
    intro hEq
    have := (mem_avail_primary.mp (py_min_by_mem _ hp)).2
    rw [hEq] at this
    exact hAnot this
  | none =>
    cases hb : py_min_by (fun k => (reset_usage cfg now u k).calls)
        (avail_backup cfg now u) with
    | some bk =>
      rw [gnk_backup cfg now u hk hp hb]
      simp only [ne_eq, Option.some.injEq]
      intro hEq
      have := (mem_avail_backup.mp (py_min_by_mem _ hb)).2
      rw [hEq] at this
      exact hAnot this
    | none =>
      exfalso
      rcases List.mem_append.mp hk0 with hmp | hmb
      · have : k0 ∈ avail_primary cfg now u := mem_avail_primary.mpr ⟨hmp, hcd0⟩
        rw [py_min_by_eq_none_iff] at hp
        rw [hp] at this
        exact List.not_mem_nil k0 this
      · have : k0 ∈ avail_backup cfg now u := mem_avail_backup.mpr ⟨hmb, hcd0⟩
        rw [py_min_by_eq_none_iff] at hb
        rw [hb] at this
        exact List.not_mem_nil k0 this

/-- Witness for the amended C6: key `"A"` cooled down to time 5, key `"B"`
free; an acquisition at time 3 does not return `"A"`. -/
theorem C6_witness :
    (3 : ℤ) < (0 : ℤ) + 5 ∧
      (∃ k ∈ configured ⟨[], ["A", "B"]⟩,
        (report_key_cooldown "A" (5 : ℤ) 0 (fun _ => ⟨0, 0, 0⟩) k).cooldown_until ≤ (3 : ℤ)) ∧
      (get_next_key ⟨[], ["A", "B"]⟩ ["A", "B"] (3 : ℤ)
        (report_key_cooldown "A" 5 0 (fun _ => ⟨0, 0, 0⟩))).1 ≠ some "A" :=
  ⟨by decide, by decide,
    C6_cooldown_blocks_selection ⟨[], ["A", "B"]⟩ ["A", "B"] (0 : ℤ) 3 5 "A"
      (fun _ => ⟨0, 0, 0⟩) (by decide) (by decide)⟩

/-! ### Claim C9: frame effects of `_get_next_key` -/

/-- C9 as stated is false on an empty-string credential: `if best_key:` is a
Python truthiness test, so the empty string is returned without its counter
being incremented. -/
theorem C9_counterexample :
    (get_next_key ⟨[""], []⟩ [""] (0 : ℤ) (fun _ => (⟨7, 0, 0⟩ : Usage ℤ))).1 = some "" ∧
      ((get_next_key ⟨[""], []⟩ [""] (0 : ℤ) (fun _ => (⟨7, 0, 0⟩ : Usage ℤ))).2 "").calls = 7 := by
  constructor
  · rfl
  · rfl

/-- C9 amended: `_get_next_key` never changes any cooldown timestamp; with an
empty `keys` argument it changes nothing at all; when an eligible credential
exists it returns some key `bk` and — provided `bk` is not the empty string
(Python truthiness) — increments exactly `bk`'s rolling counter on top of the
60-second-window reset, leaving every other key at its reset value; in the
all-in-cooldown fallback no counter is incremented. -/
theorem C9_frame_effects (cfg : PoolSettings) (keys : List String) (now : T)
    (usage : String → Usage T) :
    (∀ k, ((get_next_key cfg keys now usage).2 k).cooldown_until =
        (usage k).cooldown_until) ∧
    (keys = [] → ∀ k, (get_next_key cfg keys now usage).2 k = usage k) ∧
    (keys ≠ [] → (∃ k ∈ configured cfg, (usage k).cooldown_until ≤ now) →
      ∃ bk, (get_next_key cfg keys now usage).1 = some bk ∧
        (bk ≠ "" → ((get_next_key cfg keys now usage).2 bk).calls =
            (reset_usage cfg now usage bk).calls + 1 ∧
          ∀ k, k ≠ bk →
            (get_next_key cfg keys now usage).2 k = reset_usage cfg now usage k) ∧
        (bk = "" → ∀ k,
          (get_next_key cfg keys now usage).2 k = reset_usage cfg now usage k)) ∧
    (keys ≠ [] → (∀ k ∈ configured cfg, now < (usage k).cooldown_until) →
      ∀ k, (get_next_key cfg keys now usage).2 k = reset_usage cfg now usage k) := by
  refine ⟨?_, ?_, ?_, ?_⟩
  · intro k
    rcases gnk_snd_cases cfg keys now usage with h | h | ⟨bk, _, h⟩
    · rw [h]
    · rw [h, reset_usage_cooldown]
    · rw [h, bump_cooldown, reset_usage_cooldown]
  · intro h k
    rw [gnk_empty cfg now usage h]
  · intro hk ⟨k0, hk0, hcd0⟩
    have hbump : ∀ bk,
        (bk ≠ "" → (bump (reset_usage cfg now usage) bk bk).calls =
            (reset_usage cfg now usage bk).calls + 1 ∧
          ∀ k, k ≠ bk →
            bump (reset_usage cfg now usage) bk k = reset_usage cfg now usage k) ∧
        (bk = "" → ∀ k,
          bump (reset_usage cfg now usage) bk k = reset_usage cfg now usage k) := by
      intro bk
      constructor
      · intro hne
        constructor
        · simp [bump, hne]
        · intro k hx
          simp [bump, hx]
      · intro hbe
        intro k
        simp [bump, hbe]
    cases hp : py_min_by (fun k => (reset_usage cfg now usage k).calls)
        (avail_primary cfg now usage) with
    | some bk =>
      rw [gnk_primary cfg now usage hk hp]
      exact ⟨bk, rfl, hbump bk⟩
    | none =>
      cases hb : py_min_by (fun k => (reset_usage cfg now usage k).calls)
          (avail_backup cfg now usage) with
      | some bk =>
        rw [gnk_backup cfg now usage hk hp hb]
        exact ⟨bk, rfl, hbump bk⟩
      | none =>
        exfalso
        rcases List.mem_append.mp hk0 with hmp | hmb
        · have : k0 ∈ avail_primary cfg now usage := mem_avail_primary.mpr ⟨hmp, hcd0⟩
          rw [py_min_by_eq_none_iff] at hp
          rw [hp] at this
          exact List.not_mem_nil k0 this
        · have : k0 ∈ avail_backup cfg now usage := mem_avail_backup.mpr ⟨hmb, hcd0⟩
          rw [py_min_by_eq_none_iff] at hb
          rw [hb] at this
          exact List.not_mem_nil k0 this
  · intro hk hall
    have hp : py_min_by (fun k => (reset_usage cfg now usage k).calls)
        (avail_primary cfg now usage) = none := by
      rw [py_min_by_eq_none_iff]
      cases hq : avail_primary cfg now usage with
      | nil => rfl
      | cons x xs =>
        have : x ∈ avail_primary cfg now usage := by rw [hq]; exact List.mem_cons_self _ _
        obtain ⟨hxm, hxcd⟩ := mem_avail_primary.mp this
        exact absurd hxcd (not_le.mpr (hall x (List.mem_append_left _ hxm)))
    have hb : py_min_by (fun k => (reset_usage cfg now usage k).calls)
        (avail_backup cfg now usage) = none := by
      rw [py_min_by_eq_none_iff]
      cases hq : avail_backup cfg now usage with
      | nil => rfl
      | cons x xs =>
        have : x ∈ avail_backup cfg now usage := by rw [hq]; exact List.mem_cons_self _ _
        obtain ⟨hxm, hxcd⟩ := mem_avail_backup.mp this
        exact absurd hxcd (not_le.mpr (hall x (List.mem_append_right _ hxm)))
    by_cases hc : configured cfg = []
    · rw [gnk_fallback_none cfg now usage hk hp hb hc]
      intro k; rfl
    · rw [gnk_fallback cfg now usage hk hp hb hc]
      intro k; rfl

/-- Witness for the amended C9 at a concrete two-key pool. -/
theorem C9_witness :
    (["A", "B"] : List String) ≠ [] ∧
      (∃ k ∈ configured ⟨["A", "B"], []⟩,
        ((fun _ => (⟨2, 0, 0⟩ : Usage ℤ)) k).cooldown_until ≤ (1 : ℤ)) ∧
      (∃ bk, (get_next_key ⟨["A", "B"], []⟩ ["A", "B"] (1 : ℤ) (fun _ => (⟨2, 0, 0⟩ : Usage ℤ))).1 = some bk ∧
        (bk ≠ "" → ((get_next_key ⟨["A", "B"], []⟩ ["A", "B"] (1 : ℤ) (fun _ => (⟨2, 0, 0⟩ : Usage ℤ))).2 bk).calls =
            (reset_usage ⟨["A", "B"], []⟩ (1 : ℤ) (fun _ => (⟨2, 0, 0⟩ : Usage ℤ)) bk).calls + 1 ∧
          ∀ k, k ≠ bk →
            (get_next_key ⟨["A", "B"], []⟩ ["A", "B"] (1 : ℤ) (fun _ => (⟨2, 0, 0⟩ : Usage ℤ))).2 k =
              reset_usage ⟨["A", "B"], []⟩ (1 : ℤ) (fun _ => (⟨2, 0, 0⟩ : Usage ℤ)) k) ∧
        (bk = "" → ∀ k,
          (get_next_key ⟨["A", "B"], []⟩ ["A", "B"] (1 : ℤ) (fun _ => (⟨2, 0, 0⟩ : Usage ℤ))).2 k =
            reset_usage ⟨["A", "B"], []⟩ (1 : ℤ) (fun _ => (⟨2, 0, 0⟩ : Usage ℤ)) k)) :=
  ⟨by decide, by decide,
    (C9_frame_effects ⟨["A", "B"], []⟩ ["A", "B"] (1 : ℤ) (fun _ => (⟨2, 0, 0⟩ : Usage ℤ))).2.2.1
      (by decide) (by decide)⟩

/-! ### Claim C2: index-fidelity of result assembly -/

theorem foldl_set_length {R : Type} :
    ∀ (l : List (Nat × R)) (init : List (Option R)),
      (l.foldl (fun acc p => acc.set p.1 (some p.2)) init).length = init.length := by
  intro l
  induction l with
  | nil => intro init; rfl
  | cons p t ih => intro init; rw [List.foldl_cons, ih, List.length_set]

theorem foldl_set_not_mem {R : Type} :
    ∀ (l : List (Nat × R)) (init : List (Option R)) (i : Nat),
      i ∉ l.map Prod.fst →
      (l.foldl (fun acc p => acc.set p.1 (some p.2)) init)[i]? = init[i]? := by
  intro l
  induction l with
  | nil => intro init i _; rfl
  | cons p t ih =>
    intro init i hi
    rw [List.map_cons, List.mem_cons] at hi
    push_neg at hi
    rw [List.foldl_cons, ih _ _ hi.2, List.getElem?_set_ne (fun h => hi.1 h.symm)]

theorem foldl_set_mem {R : Type} :
    ∀ (l : List (Nat × R)) (init : List (Option R)) (i : Nat) (r : R),
      (i, r) ∈ l → (l.map Prod.fst).Nodup → i < init.length →
      (l.foldl (fun acc p => acc.set p.1 (some p.2)) init)[i]? = some (some r) := by
  intro l
  induction l with
  | nil => intro init i r h; exact absurd h (List.not_mem_nil _)
  | cons p t ih =>
    intro init i r hmem hnd hlen
    rw [List.map_cons, List.nodup_cons] at hnd
    rcases List.mem_cons.mp hmem with heq | htail
    · have hp1 : p.1 = i := by rw [← heq]
      have hp2 : p.2 = r := by rw [← heq]
      have hnot : i ∉ t.map Prod.fst := by rw [← hp1]; exact hnd.1
      rw [List.foldl_cons, foldl_set_not_mem t _ i hnot, hp1, hp2,
        List.getElem?_set_eq_of_lt _ hlen]
    · have hne : p.1 ≠ i := by
        intro h
        exact hnd.1 (h ▸ (List.mem_map.mpr ⟨(i, r), htail, by rw [← h]⟩))
      rw [List.foldl_cons]
      exact ih _ i r htail hnd.2 (by rw [List.length_set]; exact hlen)

/-- C2: for a job over `n` chunks, whatever order the `(index, result)`
completions arrive in, the assembled list has length `n` and position `i`
holds exactly chunk `i`'s result. -/
theorem C2_index_fidelity {R : Type} (n : Nat) (f : Nat → R)
    (completions : List (Nat × R))
    (hperm : completions.Perm ((List.range n).map (fun i => (i, f i)))) :
    (assemble_results n completions).length = n ∧
      ∀ i, i < n → (assemble_results n completions)[i]? = some (some (f i)) := by
  constructor
  · rw [assemble_results, foldl_set_length, List.length_replicate]
  · intro i hi
    have hmem : (i, f i) ∈ completions :=
      hperm.mem_iff.mpr (List.mem_map.mpr ⟨i, List.mem_range.mpr hi, rfl⟩)
    have hnodup : (completions.map Prod.fst).Nodup := by
      have hp := hperm.map Prod.fst
      rw [List.map_map] at hp
      have hid : ((List.range n).map (Prod.fst ∘ fun i => (i, f i))) = List.range n := by
        rw [show (Prod.fst ∘ fun i => (i, f i)) = id from rfl, List.map_id]
      rw [hid] at hp
      exact hp.nodup_iff.mpr (List.nodup_range n)
    have hlen : i < (List.replicate n (none : Option R)).length := by
      rw [List.length_replicate]; exact hi
    exact foldl_set_mem completions _ i (f i) hmem hnodup hlen

/-- Witness for C2: three chunks completing in the order 2, 0, 1 still
assemble as `[r0, r1, r2]`. -/
theorem C2_witness :
    ([(2, 20), (0, 0), (1, 10)] : List (Nat × Nat)).Perm
        ((List.range 3).map (fun i => (i, 10 * i))) ∧
      (assemble_results 3 [(2, 20), (0, 0), (1, 10)]).length = 3 ∧
      ∀ i, i < 3 → (assemble_results 3 [(2, 20), (0, 0), (1, 10)])[i]? =
        some (some (10 * i)) :=
  ⟨by decide, C2_index_fidelity 3 (fun i => 10 * i) [(2, 20), (0, 0), (1, 10)] (by decide)⟩

/-! ### Claim C7: failed segments render as inline warnings -/

theorem combine_foldl_char :
    ∀ (results : List (Option ChunkResult)) (n : Nat)
      (acc : List Char × List (List Char)),
      (results.enumFrom n).foldl combine_step acc =
        (acc.1 ++ ((results.enumFrom n).map render_chunk).flatten,
          acc.2 ++ ((results.enumFrom n).filter (fun p => !chunk_ok p.2)).map
            (fun p => error_entry p.1 (err_txt_of p.2))) := by
  intro results
  induction results with
  | nil => intro n acc; simp
  | cons r t ih =>
    intro n acc
    rw [List.enumFrom_cons, List.foldl_cons, ih]
    by_cases h : chunk_ok r
    · simp [combine_step, render_chunk, h, List.append_assoc]
    · simp [combine_step, render_chunk, h, List.append_assoc]

theorem enumFrom_filter_length (q : Option ChunkResult → Bool) :
    ∀ (l : List (Option ChunkResult)) (n : Nat),
      ((l.enumFrom n).filter (fun p => q p.2)).length = (l.filter q).length := by
  intro l
  induction l with
  | nil => intro n; rfl
  | cons r t ih =>
    intro n
    rw [List.enumFrom_cons]
    by_cases h : q r <;> simp [List.filter_cons, h, ih]

/-- C7 amended: the combine loop renders every chunk independently — each
failed chunk contributes, at its own chronological position, the inline
warning marker carrying the failure text (not the segment number), successful
siblings contribute their text unchanged, and every failure additionally gets
a `Chunk i+1`-named entry in the separate `errors` list, one per failure. -/
theorem C7_inline_warning_rendering (results : List (Option ChunkResult)) :
    combine_results results =
      ((results.enum.map render_chunk).flatten,
        (results.enum.filter (fun p => !chunk_ok p.2)).map
          (fun p => error_entry p.1 (err_txt_of p.2))) ∧
      (combine_results results).2.length =
        (results.filter (fun r => !chunk_ok r)).length := by
  have h := combine_foldl_char results 0 ([], [])
  constructor
  · simpa [combine_results, List.enum] using h
  · have h2 := congrArg Prod.snd h
    simp only [combine_results, List.enum] at *
    rw [h2]
    simpa using enumFrom_filter_length (fun r => !chunk_ok r) results 0

/-- C7 as stated is false in its "naming the failed segment" part: with chunk 1
(the second of three) failing, the transcript contains the inline warning
marker at the right position but no mention of which segment failed — the
digit `2` (and the word `Chunk`, whose capital `C` appears nowhere) occur only
in the separate errors list. -/
theorem C7_counterexample :
    (combine_results [some ⟨"hello".toList, false⟩, some ⟨"boom".toList, true⟩,
        some ⟨"world".toList, false⟩]).1 =
      "\n\nhello\n\n[WARNING: A section failed to transcribe. Error: boom]\n\nworld".toList ∧
      '2' ∉ (combine_results [some ⟨"hello".toList, false⟩, some ⟨"boom".toList, true⟩,
        some ⟨"world".toList, false⟩]).1 ∧
      'C' ∉ (combine_results [some ⟨"hello".toList, false⟩, some ⟨"boom".toList, true⟩,
        some ⟨"world".toList, false⟩]).1 ∧
      (combine_results [some ⟨"hello".toList, false⟩, some ⟨"boom".toList, true⟩,
        some ⟨"world".toList, false⟩]).2 = ["Chunk 2: boom".toList] := by
  refine ⟨?_, by decide, by decide, ?_⟩ <;> decide

/-! ### Claim C8: subsegment ids and whole-job offsets -/

theorem build_entry_eq_none {ws : WhisperSegment} (idx chunk_minutes n : Nat)
    (h : py_strip ws.text = []) : build_entry idx chunk_minutes (n, ws) = none := by
  simp [build_entry, h]

theorem build_entry_eq_some {ws : WhisperSegment} (idx chunk_minutes n : Nat)
    (h : ¬ py_strip ws.text = []) :
    build_entry idx chunk_minutes (n, ws) = some ⟨n,
      (format_time (ws.start + ((idx * chunk_minutes * 60 : Nat) : ℚ))).toList,
      py_strip ws.text⟩ := by
  simp [build_entry, h]

theorem build_enumFrom_bounds :
    ∀ (segs : List WhisperSegment) (idx chunk_minutes n : Nat),
      (∀ e ∈ (segs.enumFrom n).filterMap (build_entry idx chunk_minutes),
        n ≤ e.sid) ∧
      (((segs.enumFrom n).filterMap (build_entry idx chunk_minutes)).map
        (fun e => e.sid)).Pairwise (· < ·) := by
  intro segs
  induction segs with
  | nil => intro idx cm n; exact ⟨by simp, by simp⟩
  | cons ws t ih =>
    intro idx cm n
    rw [List.enumFrom_cons]
    obtain ⟨ihb, ihp⟩ := ih idx cm (n + 1)
    by_cases h : py_strip ws.text = []
    · rw [List.filterMap_cons_none (build_entry_eq_none idx cm n h)]
      exact ⟨fun e he => Nat.le_of_succ_le (ihb e he), ihp⟩
    · rw [List.filterMap_cons_some (build_entry_eq_some idx cm n h)]
      refine ⟨?_, ?_⟩
      · intro e he
        rcases List.mem_cons.mp he with rfl | he
        · exact le_refl n
        · exact Nat.le_of_succ_le (ihb e he)
      · rw [List.map_cons]
        exact List.Pairwise.cons (fun x hx => by
          obtain ⟨e, he, hex⟩ := List.mem_map.mp hx
          rw [← hex]; exact Nat.lt_of_succ_le (ihb e he)) ihp

theorem build_enumFrom_all_kept :
    ∀ (segs : List WhisperSegment) (idx chunk_minutes n : Nat),
      (∀ ws ∈ segs, py_strip ws.text ≠ []) →
      (((segs.enumFrom n).filterMap (build_entry idx chunk_minutes)).map
        (fun e => e.sid)) = List.range' n segs.length := by
  intro segs
  induction segs with
  | nil => intro idx cm n _; rfl
  | cons ws t ih =>
    intro idx cm n hall
    rw [List.enumFrom_cons]
    have h := hall ws (List.mem_cons_self _ _)
    rw [List.filterMap_cons_some (build_entry_eq_some idx cm n h), List.map_cons,
      ih idx cm (n + 1) (fun w hw => hall w (List.mem_cons_of_mem _ hw))]
    rfl

/-- C8: every produced subsegment carries the 0-based enumeration index of its
source Whisper segment as its chunk-local id (strictly increasing, and exactly
`0..n-1` when no segment is dropped as empty), its text stripped, and a
timestamp rendered from the whole-job offset
`local start + idx × chunk_minutes × 60`. -/
theorem C8_ids_and_offsets (idx chunk_minutes : Nat) (segs : List WhisperSegment) :
    (∀ e ∈ build_segments_data idx chunk_minutes segs,
      ∃ ws, segs[e.sid]? = some ws ∧
        e.text = py_strip ws.text ∧ py_strip ws.text ≠ [] ∧
        e.time_str =
          (format_time (ws.start + ((idx * chunk_minutes * 60 : Nat) : ℚ))).toList) ∧
    ((build_segments_data idx chunk_minutes segs).map (fun e => e.sid)).Pairwise (· < ·) ∧
    ((∀ ws ∈ segs, py_strip ws.text ≠ []) →
      (build_segments_data idx chunk_minutes segs).map (fun e => e.sid) =
        List.range segs.length) := by
  refine ⟨?_, ?_, ?_⟩
  · intro e he
    obtain ⟨p, hp, hpe⟩ := List.mem_filterMap.mp he
    by_cases h : py_strip p.2.text = []
    · rw [build_entry_eq_none idx chunk_minutes p.1 h] at hpe
      exact absurd hpe (by simp)
    · rw [build_entry_eq_some idx chunk_minutes p.1 h] at hpe
      have hget := List.mem_enum_iff_getElem?.mp hp
      obtain rfl := Option.some.inj hpe
      exact ⟨p.2, hget, rfl, h, rfl⟩
  · exact (build_enumFrom_bounds segs idx chunk_minutes 0).2
  · intro hall
    rw [build_segments_data, List.enum,
      build_enumFrom_all_kept segs idx chunk_minutes 0 hall, List.range_eq_range']

/-- Witness for C8: chunk index 2 with 10-minute chunks and a single Whisper
segment starting 30 s into the chunk renders `[20:30]` (offset 1230 s). -/
theorem C8_witness :
    ((⟨0, "[20:30]".toList, "hello".toList⟩ : SegData) ∈
        build_segments_data 2 10 [⟨30, " hello ".toList⟩]) ∧
      ∃ ws, ([⟨30, " hello ".toList⟩] : List WhisperSegment)[(0 : Nat)]? = some ws ∧
        ("hello".toList = py_strip ws.text ∧ py_strip ws.text ≠ [] ∧
          "[20:30]".toList =
            (format_time (ws.start + ((2 * 10 * 60 : Nat) : ℚ))).toList) := by
  have h1 : py_strip " hello ".toList = "hello".toList := by decide
  have hne : ¬ py_strip (" hello ".toList) = [] := by decide
  have h2 : format_time ((30 : ℚ) + ((2 * 10 * 60 : Nat) : ℚ)) = "[20:30]" := by
    have h30 : ((30 : ℚ) + ((2 * 10 * 60 : Nat) : ℚ)) = 1230 := by norm_num
    rw [h30]
    have hh : ⌊(1230 : ℚ) / 3600⌋ = 0 := by norm_num
    have hm1 : py_mod 1230 3600 = 1230 := by rw [py_mod]; norm_num
    have hm : ⌊py_mod 1230 3600 / 60⌋ = 20 := by rw [hm1]; norm_num
    have hs1 : py_mod 1230 60 = 30 := by
      rw [py_mod]
      have h20 : ⌊(1230 : ℚ) / 60⌋ = 20 := by norm_num
      rw [h20]; norm_num
    have hs : ⌊py_mod 1230 60⌋ = 30 := by rw [hs1]; norm_num
    rw [format_time]
    simp only [hh, hm, hs]
    norm_num [pad2]
    rfl
  have hbuild : build_segments_data 2 10 [⟨30, " hello ".toList⟩] =
      [⟨0, "[20:30]".toList, "hello".toList⟩] := by
    have hsome := @build_entry_eq_some ⟨30, " hello ".toList⟩ 2 10 0 hne
    rw [h1, h2] at hsome
    simp only [build_segments_data, List.enum, List.enumFrom]
    rw [List.filterMap_cons_some hsome]
    rfl
  have hmem : (⟨0, "[20:30]".toList, "hello".toList⟩ : SegData) ∈
      build_segments_data 2 10 [⟨30, " hello ".toList⟩] := by
    rw [hbuild]; exact List.mem_singleton.mpr rfl
  obtain ⟨ws, hws, ha, hb, hc⟩ :=
    (C8_ids_and_offsets 2 10 [⟨30, " hello ".toList⟩]).1 _ hmem
  exact ⟨hmem, ws, hws, ha, hb, hc⟩

/-! ### Claim C1: the speaker merge only inserts, with a caveat -/

/-- C1 as stated is false: the merge appends one space after every subsegment
text, so stripping the header lines from the output of two subsegments `"a"`,
`"b"` yields `"a b"`, not the byte-identical concatenation `"ab"`. -/
theorem C1_counterexample :
    remove_header_lines (smart_format_assemble
        [⟨0, "[00:00]".toList, "a".toList⟩, ⟨1, "[00:05]".toList, "b".toList⟩]
        (fun _ => none)) = "a b".toList ∧
      (([⟨0, "[00:00]".toList, "a".toList⟩,
          ⟨1, "[00:05]".toList, "b".toList⟩] : List SegData).map
        SegData.text).flatten = "ab".toList ∧
      remove_header_lines (smart_format_assemble
        [⟨0, "[00:00]".toList, "a".toList⟩, ⟨1, "[00:05]".toList, "b".toList⟩]
        (fun _ => none)) ≠
      (([⟨0, "[00:00]".toList, "a".toList⟩,
          ⟨1, "[00:05]".toList, "b".toList⟩] : List SegData).map
        SegData.text).flatten := by
  refine ⟨?_, ?_, ?_⟩ <;> decide

theorem merge_eq_pieces :
    ∀ (segs : List SegData) (m : Nat → Option (List Char)) (cur : List Char),
      merge_loop segs m cur = ((resolve_headers segs m cur).map piece_of).flatten := by
  intro segs
  induction segs with
  | nil => intro m cur; rfl
  | cons s rest ih =>
    intro m cur
    rw [merge_loop, resolve_headers]
    cases h : (fun n => if s.sid = 0 ∧ m 0 = none ∧ n = 0 then some cur else m n) s.sid with
    | some name =>
      simp only [h, List.map_cons, List.flatten_cons, ih, piece_of]
      try simp [List.append_assoc]
    | none =>
      simp only [h, List.map_cons, List.flatten_cons, ih, piece_of]
      try simp [List.append_assoc]

theorem resolve_snd :
    ∀ (segs : List SegData) (m : Nat → Option (List Char)) (cur : List Char),
      (resolve_headers segs m cur).map Prod.snd = segs := by
  intro segs
  induction segs with
  | nil => intro m cur; rfl
  | cons s rest ih =>
    intro m cur
    rw [resolve_headers]
    cases h : (fun n => if s.sid = 0 ∧ m 0 = none ∧ n = 0 then some cur else m n) s.sid with
    | some name => simp only [h, List.map_cons, ih]
    | none => simp only [h, List.map_cons, ih]

theorem resolve_names :
    ∀ (segs : List SegData) (m : Nat → Option (List Char)) (cur : List Char),
      '\n' ∉ cur → (∀ n v, m n = some v → '\n' ∉ v) →
      ∀ p ∈ resolve_headers segs m cur, ∀ nm, p.1 = some nm → '\n' ∉ nm := by
  intro segs
  induction segs with
  | nil => intro m cur _ _ p hp; exact absurd hp (List.not_mem_nil p)
  | cons s rest ih =>
    intro m cur hcur hm p hp nm hnm
    rw [resolve_headers] at hp
    have hm1 : ∀ n v,
        (fun n => if s.sid = 0 ∧ m 0 = none ∧ n = 0 then some cur else m n) n = some v →
        '\n' ∉ v := by
      intro n v hv
      simp only at hv
      split at hv
      · exact (Option.some.inj hv) ▸ hcur
      · exact hm n v hv
    cases h : (fun n => if s.sid = 0 ∧ m 0 = none ∧ n = 0 then some cur else m n) s.sid with
    | some name =>
      rw [h] at hp
      rcases List.mem_cons.mp hp with rfl | hp
      · have hname : name = nm := by simpa using hnm
        exact hname ▸ hm1 s.sid name h
      · exact ih _ name (hm1 s.sid name h) hm1 p hp nm hnm
    | none =>
      rw [h] at hp
      rcases List.mem_cons.mp hp with rfl | hp
      · simp at hnm
      · exact ih _ cur hcur hm1 p hp nm hnm

theorem no_nl_space_of_not_mem {l : List Char} (h : '\n' ∉ l) :
    no_nl_space l = true := by
  induction l with
  | nil => rfl
  | cons c rest ih =>
    rw [no_nl_space]
    have hc : c ≠ '\n' := fun hc => h (hc ▸ List.mem_cons_self c rest)
    have hrest := ih (fun hr => h (List.mem_cons_of_mem c hr))
    simp [hc, hrest]

theorem no_nl_space_append {xs ys : List Char} (hx : no_nl_space xs = true)
    (hy : no_nl_space ys = true)
    (hb : xs.getLast? = some '\n' → ys.head? ≠ some ' ') :
    no_nl_space (xs ++ ys) = true := by
  induction xs with
  | nil => exact hy
  | cons c rest ih =>
    rw [no_nl_space, Bool.and_eq_true] at hx
    obtain ⟨hx1, hx2⟩ := hx
    cases rest with
    | nil =>
      simp only [List.nil_append, List.singleton_append, no_nl_space, Bool.and_eq_true]
      refine ⟨?_, hy⟩
      by_cases hc : c = '\n'
      · have hys : ys.head? ≠ some ' ' := hb (by simp [hc])
        simp [hc, hys]
      · simp [hc]
    | cons d rest2 =>
      have hxs_last : (c :: d :: rest2).getLast? = (d :: rest2).getLast? :=
        List.getLast?_cons_cons
      have ih2 := ih hx2 (fun hl => hb (by rw [hxs_last]; exact hl))
      simp only [List.cons_append] at ih2 ⊢
      rw [no_nl_space, Bool.and_eq_true]
      refine ⟨?_, ih2⟩
      simpa using hx1

theorem replace_nl_space_id : ∀ l : List Char, no_nl_space l = true →
    replace_nl_space l = l := by
  intro l
  induction l with
  | nil => intro _; rfl
  | cons c rest ih =>
    intro h
    rw [no_nl_space, Bool.and_eq_true] at h
    obtain ⟨h1, h2⟩ := h
    cases rest with
    | nil => rfl
    | cons d rest2 =>
      have hcd : ¬(c = '\n' ∧ d = ' ') := by
        rintro ⟨hc, hd⟩
        rw [hc, hd] at h1
        simp at h1
      rw [replace_nl_space, if_neg hcd, ih h2]

theorem last_ne_nl {l : List Char} {c : Char} (h : l.getLast? = some c)
    (hc : c ≠ '\n') : ¬ l.getLast? = some '\n' := by
  intro h'
  rw [h] at h'
  exact hc (Option.some.inj h')

theorem good_text_head_ws {t : List Char} (ht : good_text t) {c : Char}
    (h : t.head? = some c) : is_py_ws c = false := by
  have h2 := ht.2.2.1
  rw [h] at h2
  simpa using h2

theorem good_text_last_ws {t : List Char} (ht : good_text t) {c : Char}
    (h : t.getLast? = some c) : is_py_ws c = false := by
  have h2 := ht.2.2.2.1
  rw [h] at h2
  simpa using h2

theorem good_text_head {t : List Char} (ht : good_text t) : t.head? ≠ some ' ' := by
  intro h
  have := good_text_head_ws ht h
  simp [is_py_ws] at this

theorem good_text_last_ne_nl {t : List Char} (ht : good_text t) :
    ¬ t.getLast? = some '\n' := by
  obtain ⟨hne, hnl, _⟩ := ht
  intro h
  exact hnl (List.mem_of_mem_getLast? h)

theorem good_text_append_space_head {t : List Char} (ht : good_text t) :
    (t ++ [' ']).head? ≠ some ' ' := by
  cases hx : t with
  | nil => exact absurd hx ht.1
  | cons a b =>
    simp only [List.cons_append, List.head?_cons]
    intro h
    have ha : a = ' ' := Option.some.inj h
    have h2 : is_py_ws a = false := good_text_head_ws ht (by rw [hx]; rfl)
    rw [ha] at h2
    exact absurd h2 (by decide)

theorem header_no_nl_space {name time : List Char} (hn : '\n' ∉ name)
    (ht : '\n' ∉ time) :
    no_nl_space (header_chars name time) = true ∧
      (header_chars name time).getLast? = some '\n' := by
  have hA : no_nl_space "\n\n[SPEAKER] ".toList = true := by decide
  have hB : no_nl_space "\n[TIME] ".toList = true := by decide
  have hAlast : "\n\n[SPEAKER] ".toList.getLast? = some ' ' := by decide
  have hBlast : "\n[TIME] ".toList.getLast? = some ' ' := by decide
  have h1 : no_nl_space ("\n\n[SPEAKER] ".toList ++ name) = true :=
    no_nl_space_append hA (no_nl_space_of_not_mem hn)
      (fun h => absurd h (last_ne_nl hAlast (by decide)))
  have h2 : no_nl_space ("\n\n[SPEAKER] ".toList ++ name ++ "\n[TIME] ".toList) = true :=
    no_nl_space_append h1 hB (fun _ h => by simp at h)
  have hlast2 : ("\n\n[SPEAKER] ".toList ++ name ++ "\n[TIME] ".toList).getLast?
      = some ' ' := by
    rw [List.getLast?_append_of_ne_nil _ (by decide)]
    exact hBlast
  have h3 : no_nl_space ("\n\n[SPEAKER] ".toList ++ name ++ "\n[TIME] ".toList ++ time)
      = true :=
    no_nl_space_append h2 (no_nl_space_of_not_mem ht)
      (fun h => absurd h (last_ne_nl hlast2 (by decide)))
  have h4 : no_nl_space ("\n\n[SPEAKER] ".toList ++ name ++ "\n[TIME] ".toList ++ time
      ++ ['\n']) = true :=
    no_nl_space_append h3 (by decide) (fun _ h => by simp at h)
  refine ⟨h4, ?_⟩
  rw [header_chars, List.getLast?_append_of_ne_nil _ (by decide)]
  rfl

theorem piece_no_nl_space {o : Option (List Char)} {s : SegData}
    (hname : ∀ nm, o = some nm → '\n' ∉ nm) (htime : '\n' ∉ s.time_str)
    (htext : good_text s.text) :
    no_nl_space (piece_of (o, s)) = true ∧
      (piece_of (o, s)).getLast? = some ' ' := by
  have htx : no_nl_space s.text = true := no_nl_space_of_not_mem htext.2.1
  have htx2 : no_nl_space (s.text ++ [' ']) = true :=
    no_nl_space_append htx (by decide)
      (fun h => absurd h (good_text_last_ne_nl htext))
  have htlast : (s.text ++ [' ']).getLast? = some ' ' := by
    rw [List.getLast?_append_of_ne_nil _ (by decide)]
    rfl
  cases o with
  | none => exact ⟨htx2, htlast⟩
  | some name =>
    obtain ⟨hh, hlast⟩ := header_no_nl_space (hname name rfl) htime
    have hp : no_nl_space (header_chars name s.time_str ++ (s.text ++ [' '])) = true :=
      no_nl_space_append hh htx2 (fun _ => good_text_append_space_head htext)
    constructor
    · show no_nl_space (header_chars name s.time_str ++ s.text ++ [' ']) = true
      rw [List.append_assoc]
      exact hp
    · show (header_chars name s.time_str ++ s.text ++ [' ']).getLast? = some ' '
      rw [List.append_assoc, List.getLast?_append_of_ne_nil _ (by simp)]
      exact htlast

theorem flatten_pieces_no_nl_space :
    ∀ ps : List (Option (List Char) × SegData),
      (∀ p ∈ ps, no_nl_space (piece_of p) = true ∧ (piece_of p).getLast? = some ' ') →
      no_nl_space (ps.map piece_of).flatten = true := by
  intro ps
  induction ps with
  | nil => intro _; rfl
  | cons p t ih =>
    intro h
    rw [List.map_cons, List.flatten_cons]
    obtain ⟨hp, hlast⟩ := h p (List.mem_cons_self _ _)
    exact no_nl_space_append hp (ih (fun q hq => h q (List.mem_cons_of_mem _ hq)))
      (last_ne_nl hlast (by decide) · |>.elim)

theorem lines_of_ne_nil : ∀ l : List Char, lines_of l ≠ [] := by
  intro l
  cases l with
  | nil => simp [lines_of]
  | cons c rest =>
    rw [lines_of]
    by_cases h : c = '\n'
    · simp [h]
    · rw [if_neg h]
      cases hl : lines_of rest with
      | nil => simp
      | cons ln lns => simp

theorem lines_of_eq_cons (l : List Char) :
    lines_of l = (lines_of l).headI :: (lines_of l).tail := by
  cases hl : lines_of l with
  | nil => exact absurd hl (lines_of_ne_nil l)
  | cons a t => simp

theorem lines_of_nl_cons (l : List Char) :
    lines_of ('\n' :: l) = [] :: lines_of l := by
  rw [lines_of, if_pos rfl]

theorem lines_of_nlfree_append {A : List Char} (h : '\n' ∉ A) :
    ∀ ys, lines_of (A ++ ys) = (A ++ (lines_of ys).headI) :: (lines_of ys).tail := by
  induction A with
  | nil => intro ys; simpa using lines_of_eq_cons ys
  | cons c A ih =>
    intro ys
    have hc : c ≠ '\n' := fun hc => h (hc ▸ List.mem_cons_self c A)
    have hA : '\n' ∉ A := fun hA2 => h (List.mem_cons_of_mem _ hA2)
    rw [List.cons_append, lines_of, if_neg hc, ih hA ys]
    simp

theorem lines_of_nlfree_line {A : List Char} (h : '\n' ∉ A) (r : List Char) :
    lines_of (A ++ '\n' :: r) = A :: lines_of r := by
  rw [lines_of_nlfree_append h, lines_of_nl_cons]
  simp

theorem lines_of_nlfree_single {A : List Char} (h : '\n' ∉ A) :
    lines_of A = [A] := by
  have := lines_of_nlfree_append h []
  rw [List.append_nil] at this
  rw [this]
  simp [lines_of]

theorem starts_with_chars_self_append :
    ∀ pat r : List Char, starts_with_chars pat (pat ++ r) = true := by
  intro pat
  induction pat with
  | nil => intro r; rfl
  | cons p ps ih =>
    intro r
    rw [List.cons_append, starts_with_chars, Bool.and_eq_true]
    exact ⟨by simp, ih r⟩

theorem starts_with_append_space {pat : List Char} (hsp : ' ' ∉ pat) :
    ∀ (t x : List Char), starts_with_chars pat (t ++ ' ' :: x) = true →
      starts_with_chars pat t = true := by
  induction pat with
  | nil => intro t x _; rfl
  | cons p ps ih =>
    intro t x h
    cases t with
    | nil =>
      rw [List.nil_append, starts_with_chars, Bool.and_eq_true] at h
      have hp : p = ' ' := by simpa using h.1
      exact absurd (hp ▸ List.mem_cons_self p ps) hsp
    | cons c t2 =>
      rw [List.cons_append, starts_with_chars, Bool.and_eq_true] at h
      rw [starts_with_chars, Bool.and_eq_true]
      exact ⟨h.1, ih (fun hm => hsp (List.mem_cons_of_mem _ hm)) t2 x h.2⟩

theorem keep_line_extend {t : List Char} (ht : t ≠ [])
    (h1 : starts_with_chars "[SPEAKER]".toList t = false)
    (h2 : starts_with_chars "[TIME]".toList t = false) (x : List Char) :
    keep_line (t ++ ' ' :: x) = true := by
  have hs1 : starts_with_chars "[SPEAKER]".toList (t ++ ' ' :: x) = false := by
    cases hq : starts_with_chars "[SPEAKER]".toList (t ++ ' ' :: x) with
    | false => rfl
    | true =>
      have := starts_with_append_space (by decide) t x hq
      rw [h1] at this
      exact absurd this (by simp)
  have hs2 : starts_with_chars "[TIME]".toList (t ++ ' ' :: x) = false := by
    cases hq : starts_with_chars "[TIME]".toList (t ++ ' ' :: x) with
    | false => rfl
    | true =>
      have := starts_with_append_space (by decide) t x hq
      rw [h2] at this
      exact absurd this (by simp)
  have hne : (t ++ ' ' :: x).isEmpty = false := by
    cases t with
    | nil => rfl
    | cons a b => rfl
  rw [keep_line, hs1, hs2, hne]
  rfl

theorem keep_line_good_text {t : List Char} (hgt : good_text t) :
    keep_line t = true := by
  obtain ⟨hne, _, _, _, h1, h2⟩ := hgt
  have hemp : t.isEmpty = false := by
    cases t with
    | nil => exact absurd rfl hne
    | cons a b => rfl
  rw [keep_line, h1, h2, hemp]
  rfl

theorem rhl_nl_cons (l : List Char) :
    remove_header_lines ('\n' :: l) = remove_header_lines l := by
  have hk : keep_line [] = false := rfl
  rw [remove_header_lines, lines_of_nl_cons, List.filter_cons, hk]
  rfl

theorem rhl_header_line {A : List Char} (hA : '\n' ∉ A)
    (hhdr : starts_with_chars "[SPEAKER]".toList A = true ∨
      starts_with_chars "[TIME]".toList A = true) (r : List Char) :
    remove_header_lines (A ++ '\n' :: r) = remove_header_lines r := by
  have hk : keep_line A = false := by
    rcases hhdr with h | h <;> rw [keep_line, h] <;> simp
  rw [remove_header_lines, lines_of_nlfree_line hA, List.filter_cons, hk]
  rfl

theorem rhl_single_text {t : List Char} (hgt : good_text t) :
    remove_header_lines t = t := by
  rw [remove_header_lines, lines_of_nlfree_single hgt.2.1, List.filter_cons,
    keep_line_good_text hgt]
  simp

theorem rhl_content {t : List Char} (hgt : good_text t) (r : List Char)
    (hg : good_head r) :
    remove_header_lines (t ++ ' ' :: r) = t ++ ' ' :: remove_header_lines r := by
  obtain ⟨hne, hnl, _, _, h1, h2⟩ := hgt
  have hws : '\n' ∉ t ++ [' '] := by
    intro hm
    rcases List.mem_append.mp hm with hm | hm
    · exact hnl hm
    · simp at hm
  have hsplit : t ++ ' ' :: r = (t ++ [' ']) ++ r := by simp
  rw [hsplit, remove_header_lines, lines_of_nlfree_append hws, List.filter_cons]
  have hk : keep_line (t ++ [' '] ++ (lines_of r).headI) = true := by
    rw [List.append_assoc]
    exact keep_line_extend hne h1 h2 _
  rw [hk]
  simp only [if_true, List.flatten_cons]
  rw [remove_header_lines]
  conv_rhs => rw [lines_of_eq_cons r]
  rw [List.filter_cons]
  rcases hg with hg | hg
  · have hk0 : keep_line ((lines_of r).headI) = false := by rw [hg]; rfl
    rw [hk0, hg]
    simp
  · rw [hg]
    simp

theorem header_append_reshape (name time X : List Char) :
    header_chars name time ++ X =
      '\n' :: '\n' :: (("[SPEAKER] ".toList ++ name) ++ '\n' ::
        (("[TIME] ".toList ++ time) ++ '\n' :: X)) := by
  rw [header_chars]
  have h1 : "\n\n[SPEAKER] ".toList = '\n' :: '\n' :: "[SPEAKER] ".toList := by decide
  have h2 : "\n[TIME] ".toList = '\n' :: "[TIME] ".toList := by decide
  rw [h1, h2]
  simp [List.append_assoc]

theorem rhl_header {name time : List Char} (hn : '\n' ∉ name) (ht : '\n' ∉ time)
    (X : List Char) :
    remove_header_lines (header_chars name time ++ X) = remove_header_lines X := by
  have hA1 : '\n' ∉ "[SPEAKER] ".toList ++ name := by
    intro hm
    rcases List.mem_append.mp hm with hm | hm
    · exact absurd hm (by decide)
    · exact hn hm
  have hA2 : '\n' ∉ "[TIME] ".toList ++ time := by
    intro hm
    rcases List.mem_append.mp hm with hm | hm
    · exact absurd hm (by decide)
    · exact ht hm
  have hst1 : starts_with_chars "[SPEAKER]".toList ("[SPEAKER] ".toList ++ name) = true := by
    have hsp : "[SPEAKER] ".toList = "[SPEAKER]".toList ++ [' '] := by decide
    rw [hsp, List.append_assoc]
    exact starts_with_chars_self_append _ _
  have hst2 : starts_with_chars "[TIME]".toList ("[TIME] ".toList ++ time) = true := by
    have hsp : "[TIME] ".toList = "[TIME]".toList ++ [' '] := by decide
    rw [hsp, List.append_assoc]
    exact starts_with_chars_self_append _ _
  rw [header_append_reshape, rhl_nl_cons, rhl_nl_cons,
    rhl_header_line hA1 (Or.inl hst1), rhl_header_line hA2 (Or.inr hst2)]

theorem good_head_trim :
    ∀ ps : List (Option (List Char) × SegData),
      (∀ p ∈ ps, good_text p.2.text) → good_head (pieces_trim ps) := by
  intro ps hps
  cases ps with
  | nil => exact Or.inl rfl
  | cons p rest =>
    obtain ⟨o, s⟩ := p
    have hgt := hps (o, s) (List.mem_cons_self _ _)
    cases o with
    | some name =>
      left
      have hX : ∃ X, pieces_trim ((some name, s) :: rest) = '\n' :: X := by
        cases rest with
        | nil =>
          refine ⟨'\n' :: ("[SPEAKER] ".toList ++ name) ++ '\n' ::
            (("[TIME] ".toList ++ s.time_str) ++ '\n' :: s.text), ?_⟩
          show header_chars name s.time_str ++ s.text = _
          rw [header_append_reshape]
          simp
        | cons q rest2 =>
          refine ⟨'\n' :: ("[SPEAKER] ".toList ++ name) ++ '\n' ::
            (("[TIME] ".toList ++ s.time_str) ++ '\n' ::
              (s.text ++ [' '] ++ pieces_trim (q :: rest2))), ?_⟩
          show piece_of (some name, s) ++ pieces_trim (q :: rest2) = _
          rw [piece_of]
          simp only
          rw [List.append_assoc, List.append_assoc, ← List.append_assoc,
            header_append_reshape]
          simp [List.append_assoc]
      obtain ⟨X, hX⟩ := hX
      rw [hX, lines_of_nl_cons]
      rfl
    | none =>
      right
      cases rest with
      | nil =>
        have htrim : pieces_trim [(none, s)] = s.text := by
          show (match (none : Option (List Char)) with
            | some name => header_chars name s.time_str
            | none => []) ++ s.text = s.text
          simp
        rw [htrim, lines_of_nlfree_single hgt.2.1]
        simpa using keep_line_good_text hgt
      | cons q rest2 =>
        have htrim : pieces_trim ((none, s) :: q :: rest2) =
            s.text ++ ' ' :: pieces_trim (q :: rest2) := by
          show piece_of (none, s) ++ pieces_trim (q :: rest2) = _
          rw [piece_of]
          simp [List.append_assoc]
        rw [htrim]
        have hws : '\n' ∉ s.text ++ [' '] := by
          intro hm
          rcases List.mem_append.mp hm with hm | hm
          · exact hgt.2.1 hm
          · simp at hm
        have hsplit : s.text ++ ' ' :: pieces_trim (q :: rest2) =
            (s.text ++ [' ']) ++ pieces_trim (q :: rest2) := by simp
        rw [hsplit, lines_of_nlfree_append hws]
        simp only [List.headI]
        rw [List.append_assoc]
        exact keep_line_extend hgt.1 hgt.2.2.2.2.1 hgt.2.2.2.2.2 _

theorem intercalate_space_cons2 (x y : List Char) (zs : List (List Char)) :
    List.intercalate [' '] (x :: y :: zs) =
      x ++ ' ' :: List.intercalate [' '] (y :: zs) := by
  simp [List.intercalate, List.intersperse]

theorem rhl_pieces_trim :
    ∀ ps : List (Option (List Char) × SegData),
      (∀ p ∈ ps, good_text p.2.text ∧ '\n' ∉ p.2.time_str ∧
        (∀ nm, p.1 = some nm → '\n' ∉ nm)) →
      remove_header_lines (pieces_trim ps) =
        List.intercalate [' '] (ps.map (fun p => p.2.text)) := by
  intro ps
  induction ps with
  | nil => intro _; decide
  | cons p rest ih =>
    intro h
    obtain ⟨hgt, htime, hname⟩ := h p (List.mem_cons_self _ _)
    obtain ⟨o, s⟩ := p
    cases rest with
    | nil =>
      have hfin : remove_header_lines (pieces_trim [(o, s)]) = s.text := by
        cases o with
        | none =>
          have htrim : pieces_trim [(none, s)] = s.text := by
            show (match (none : Option (List Char)) with
              | some name => header_chars name s.time_str
              | none => []) ++ s.text = s.text
            simp
          rw [htrim, rhl_single_text hgt]
        | some name =>
          have htrim : pieces_trim [(some name, s)] =
              header_chars name s.time_str ++ s.text := rfl
          rw [htrim, rhl_header (hname name rfl) htime, rhl_single_text hgt]
      rw [hfin]
      simp [List.intercalate]
    | cons q rest2 =>
      have hgoal : remove_header_lines (piece_of (o, s) ++ pieces_trim (q :: rest2)) =
          s.text ++ ' ' :: remove_header_lines (pieces_trim (q :: rest2)) := by
        have hghead : good_head (pieces_trim (q :: rest2)) :=
          good_head_trim (q :: rest2) (fun r hr => (h r (List.mem_cons_of_mem _ hr)).1)
        cases o with
        | none =>
          have hshape : piece_of (none, s) ++ pieces_trim (q :: rest2) =
              s.text ++ ' ' :: pieces_trim (q :: rest2) := by
            rw [piece_of]
            simp [List.append_assoc]
          rw [hshape, rhl_content hgt _ hghead]
        | some name =>
          have hshape : piece_of (some name, s) ++ pieces_trim (q :: rest2) =
              header_chars name s.time_str ++
                (s.text ++ ' ' :: pieces_trim (q :: rest2)) := by
            rw [piece_of]
            simp [List.append_assoc]
          rw [hshape, rhl_header (hname name rfl) htime, rhl_content hgt _ hghead]
      have htrim : pieces_trim ((o, s) :: q :: rest2) =
          piece_of (o, s) ++ pieces_trim (q :: rest2) := rfl
      rw [htrim, hgoal, ih (fun r hr => h r (List.mem_cons_of_mem _ hr))]
      simp only [List.map_cons, intercalate_space_cons2]

theorem flatten_pieces_trim :
    ∀ (p : Option (List Char) × SegData) (ps : List (Option (List Char) × SegData)),
      ((p :: ps).map piece_of).flatten = pieces_trim (p :: ps) ++ [' '] := by
  intro p ps
  induction ps generalizing p with
  | nil =>
    show piece_of p ++ [] = pieces_trim [p] ++ [' ']
    rw [List.append_nil, piece_of]
    rfl
  | cons q rest ih =>
    show piece_of p ++ ((q :: rest).map piece_of).flatten =
      (piece_of p ++ pieces_trim (q :: rest)) ++ [' ']
    rw [ih q, List.append_assoc]

theorem exists_getLast_of_ne_nil {t : List Char} (h : t ≠ []) :
    ∃ c, t.getLast? = some c := by
  cases ht : t.getLast? with
  | some c => exact ⟨c, rfl⟩
  | none => exact absurd (List.getLast?_eq_none_iff.mp ht) h

theorem pieces_trim_last :
    ∀ (p : Option (List Char) × SegData) (ps : List (Option (List Char) × SegData)),
      (∀ r ∈ p :: ps, good_text r.2.text) →
      ∃ c, (pieces_trim (p :: ps)).getLast? = some c ∧ is_py_ws c = false := by
  intro p ps
  induction ps generalizing p with
  | nil =>
    intro h
    have hgt := h p (List.mem_cons_self _ _)
    obtain ⟨c, hc⟩ := exists_getLast_of_ne_nil hgt.1
    refine ⟨c, ?_, good_text_last_ws hgt hc⟩
    show ((match p.1 with
      | some nm => header_chars nm p.2.time_str
      | none => []) ++ p.2.text).getLast? = some c
    rw [List.getLast?_append_of_ne_nil _ hgt.1]
    exact hc
  | cons q rest ih =>
    intro h
    obtain ⟨c, hc, hcw⟩ := ih q (fun r hr => h r (List.mem_cons_of_mem _ hr))
    have hne : pieces_trim (q :: rest) ≠ [] := by
      intro hnil
      rw [hnil] at hc
      simp at hc
    refine ⟨c, ?_, hcw⟩
    show (piece_of p ++ pieces_trim (q :: rest)).getLast? = some c
    rw [List.getLast?_append_of_ne_nil _ hne]
    exact hc

theorem dropWhile_head_not_ws {l : List Char} {c : Char} (h : l.head? = some c)
    (hc : is_py_ws c = false) : l.dropWhile is_py_ws = l := by
  cases l with
  | nil => rfl
  | cons a rest =>
    have ha : a = c := by simpa using h
    rw [List.dropWhile_cons, ha, hc]
    simp

theorem drop_trailing_space {l : List Char} {c : Char} (h : l.getLast? = some c)
    (hc : is_py_ws c = false) :
    ((l ++ [' ']).reverse.dropWhile is_py_ws).reverse = l := by
  have hrev : (l ++ [' ']).reverse = ' ' :: l.reverse := by simp
  rw [hrev, List.dropWhile_cons]
  have hws : is_py_ws ' ' = true := by decide
  rw [hws]
  simp only [if_true]
  have hrevhead : l.reverse.head? = some c := by rw [List.head?_reverse]; exact h
  rw [dropWhile_head_not_ws hrevhead hc, List.reverse_reverse]

theorem pieces_trim_some_shape (name0 : List Char) (s0 : SegData)
    (tl : List (Option (List Char) × SegData)) :
    ∃ W, pieces_trim ((some name0, s0) :: tl) = '\n' :: '\n' :: W ∧
      W.head? = some '[' := by
  cases tl with
  | nil =>
    refine ⟨("[SPEAKER] ".toList ++ name0) ++ '\n' ::
      (("[TIME] ".toList ++ s0.time_str) ++ '\n' :: s0.text), ?_, rfl⟩
    show header_chars name0 s0.time_str ++ s0.text = _
    rw [header_append_reshape]
  | cons q rest2 =>
    refine ⟨("[SPEAKER] ".toList ++ name0) ++ '\n' ::
      (("[TIME] ".toList ++ s0.time_str) ++ '\n' ::
        (s0.text ++ [' '] ++ pieces_trim (q :: rest2))), ?_, rfl⟩
    show piece_of (some name0, s0) ++ pieces_trim (q :: rest2) = _
    rw [piece_of]
    simp only
    rw [List.append_assoc, List.append_assoc, ← List.append_assoc,
      header_append_reshape]
    simp [List.append_assoc]

theorem pieces_trim_none_head (s0 : SegData) (hne : s0.text ≠ [])
    (tl : List (Option (List Char) × SegData)) :
    (pieces_trim ((none, s0) :: tl)).head? = s0.text.head? := by
  cases tl with
  | nil =>
    show ((match (none : Option (List Char)) with
      | some nm => header_chars nm s0.time_str
      | none => []) ++ s0.text).head? = _
    simp
  | cons q rest2 =>
    show (piece_of (none, s0) ++ pieces_trim (q :: rest2)).head? = _
    rw [piece_of]
    simp only [List.nil_append]
    rw [List.append_assoc, List.head?_append_of_ne_nil _ hne]

/-- C1 amended: for well-formed subsegments (non-empty, newline-free texts
with no whitespace at either end and no header-marker `[SPEAKER]`/`[TIME]`
prefix — all true of the stripped texts `process_chunk` feeds in) and any
speaker-change map, removing the inserted header lines from the merge output
yields the subsegment texts joined by single spaces, in input order: the merge
only inserts headers and one separating space per subsegment, never edits a
text. -/
theorem C1_merge_roundtrip (segs : List SegData) (m : Nat → Option (List Char))
    (htext : ∀ s ∈ segs, good_text s.text)
    (htime : ∀ s ∈ segs, '\n' ∉ s.time_str)
    (hmap : ∀ n v, m n = some v → '\n' ∉ v) :
    remove_header_lines (smart_format_assemble segs m) =
      List.intercalate [' '] (segs.map SegData.text) := by
  have hsnd := resolve_snd segs m unknown_speaker
  have hnames := resolve_names segs m unknown_speaker (by decide) hmap
  set ps := resolve_headers segs m unknown_speaker with hps
  have hall : ∀ p ∈ ps, good_text p.2.text ∧ '\n' ∉ p.2.time_str ∧
      (∀ nm, p.1 = some nm → '\n' ∉ nm) := by
    intro p hp
    have hmem : p.2 ∈ segs := by
      rw [← hsnd]
      exact List.mem_map.mpr ⟨p, hp, rfl⟩
    exact ⟨htext p.2 hmem, htime p.2 hmem, hnames p hp⟩
  have hmm : merge_loop segs m unknown_speaker = (ps.map piece_of).flatten :=
    merge_eq_pieces segs m unknown_speaker
  have hmapeq : List.intercalate [' '] (segs.map SegData.text) =
      List.intercalate [' '] (ps.map (fun p => p.2.text)) := by
    rw [← hsnd, List.map_map]
    rfl
  cases hps2 : ps with
  | nil =>
    have hsegs : segs = [] := by rw [← hsnd, hps2]; rfl
    subst hsegs
    have hsm : smart_format_assemble [] m = [] := rfl
    rw [hsm]
    decide
  | cons p0 tl =>
    have hallc : ∀ p ∈ p0 :: tl, good_text p.2.text ∧ '\n' ∉ p.2.time_str ∧
        (∀ nm, p.1 = some nm → '\n' ∉ nm) := by rw [← hps2]; exact hall
    have hflat : (ps.map piece_of).flatten = pieces_trim (p0 :: tl) ++ [' '] := by
      rw [hps2]
      exact flatten_pieces_trim p0 tl
    have hnl : no_nl_space ((ps.map piece_of).flatten) = true := by
      refine flatten_pieces_no_nl_space ps ?_
      intro p hp
      obtain ⟨hgt, htm, hnm⟩ := hall p hp
      exact piece_no_nl_space (o := p.1) (s := p.2) hnm htm hgt
    have hsmart : smart_format_assemble segs m =
        py_strip (pieces_trim (p0 :: tl) ++ [' ']) := by
      rw [smart_format_assemble, hmm, replace_nl_space_id _ hnl, hflat]
    obtain ⟨c, hc, hcw⟩ := pieces_trim_last p0 tl (fun r hr => (hallc r hr).1)
    have hrhl : remove_header_lines (pieces_trim (p0 :: tl)) =
        List.intercalate [' '] (ps.map (fun p => p.2.text)) := by
      rw [show (ps.map (fun p => p.2.text)) = ((p0 :: tl).map (fun p => p.2.text))
        from by rw [hps2]]
      exact rhl_pieces_trim (p0 :: tl) hallc
    obtain ⟨o0, s0⟩ := p0
    have hgt0 : good_text s0.text :=
      (hallc (o0, s0) (List.mem_cons_self _ _)).1
    cases o0 with
    | none =>
      obtain ⟨c0, hc0⟩ : ∃ c0, s0.text.head? = some c0 := by
        cases hx : s0.text with
        | nil => exact absurd hx hgt0.1
        | cons a b => exact ⟨a, rfl⟩
      have hc0w : is_py_ws c0 = false := good_text_head_ws hgt0 hc0
      have hhead : (pieces_trim ((none, s0) :: tl) ++ [' ']).head? = some c0 := by
        have htne : pieces_trim ((none, s0) :: tl) ≠ [] := by
          intro hnil
          rw [hnil] at hc
          simp at hc
        rw [List.head?_append_of_ne_nil _ htne, pieces_trim_none_head s0 hgt0.1 tl,
          hc0]
      have hstrip : py_strip (pieces_trim ((none, s0) :: tl) ++ [' ']) =
          pieces_trim ((none, s0) :: tl) := by
        rw [py_strip, dropWhile_head_not_ws hhead hc0w, drop_trailing_space hc hcw]
      rw [hmapeq, hsmart, hstrip, hrhl]
    | some name0 =>
      obtain ⟨W, hW, hWhead⟩ := pieces_trim_some_shape name0 s0 tl
      obtain ⟨w0, W2, hW2⟩ : ∃ w0 W2, W = w0 :: W2 := by
        cases hx : W with
        | nil => rw [hx] at hWhead; simp at hWhead
        | cons a b => exact ⟨a, b, rfl⟩
      have hw0 : w0 = '[' := by
        rw [hW2] at hWhead
        simpa using hWhead
      have hwlast : W.getLast? = some c := by
        rw [hW, hW2] at hc
        rw [hW2]
        rw [List.getLast?_cons_cons, List.getLast?_cons_cons] at hc
        exact hc
      have hwsW : (W ++ [' ']).head? = some '[' := by
        rw [List.head?_append_of_ne_nil _ (by rw [hW2]; simp), hWhead]
      have hstrip : py_strip (pieces_trim ((some name0, s0) :: tl) ++ [' ']) = W := by
        rw [py_strip, hW]
        have hshape : ('\n' :: '\n' :: W) ++ [' '] = '\n' :: '\n' :: (W ++ [' ']) := rfl
        rw [hshape, List.dropWhile_cons, List.dropWhile_cons]
        simp only [show is_py_ws '\n' = true from by decide, if_true]
        rw [dropWhile_head_not_ws hwsW (by decide), drop_trailing_space hwlast hcw]
      have hrhlW : remove_header_lines W =
          remove_header_lines (pieces_trim ((some name0, s0) :: tl)) := by
        rw [hW, rhl_nl_cons, rhl_nl_cons]
      rw [hmapeq, hsmart, hstrip, hrhlW, hrhl]

/-- Witness for the amended C1: two subsegments `"hello"`, `"world"` with a
model-declared speaker change at id 1; stripping the headers yields
`"hello world"`. -/
theorem C1_witness :
    (∀ s ∈ ([⟨0, "[00:00]".toList, "hello".toList⟩,
        ⟨1, "[00:05]".toList, "world".toList⟩] : List SegData), good_text s.text) ∧
      (∀ s ∈ ([⟨0, "[00:00]".toList, "hello".toList⟩,
        ⟨1, "[00:05]".toList, "world".toList⟩] : List SegData), '\n' ∉ s.time_str) ∧
      remove_header_lines (smart_format_assemble
          [⟨0, "[00:00]".toList, "hello".toList⟩,
            ⟨1, "[00:05]".toList, "world".toList⟩]
          (fun n => if n = 1 then some "Bob".toList else none)) =
        List.intercalate [' ']
          (([⟨0, "[00:00]".toList, "hello".toList⟩,
            ⟨1, "[00:05]".toList, "world".toList⟩] : List SegData).map SegData.text) :=
  ⟨by decide, by decide,
    C1_merge_roundtrip
      [⟨0, "[00:00]".toList, "hello".toList⟩, ⟨1, "[00:05]".toList, "world".toList⟩]
      (fun n => if n = 1 then some "Bob".toList else none)
      (by decide) (by decide)
      (by
        intro n v h
        simp only at h
        split at h
        · rw [← Option.some.inj h]
          decide
        · exact absurd h (by simp))⟩

/-! ### Claim C10: post-processing of the transcript -/

theorem py_to_lower_spec (c : Char) :
    py_to_lower c = c ∨
      (is_word_char c = true ∧ is_word_char (py_to_lower c) = true) := by
  by_cases hA : c = 'A'
  · subst hA; right; exact ⟨by decide, by decide⟩
  by_cases hB : c = 'B'
  · subst hB; right; exact ⟨by decide, by decide⟩
  by_cases hC : c = 'C'
  · subst hC; right; exact ⟨by decide, by decide⟩
  by_cases hD : c = 'D'
  · subst hD; right; exact ⟨by decide, by decide⟩
  by_cases hE : c = 'E'
  · subst hE; right; exact ⟨by decide, by decide⟩
  by_cases hF : c = 'F'
  · subst hF; right; exact ⟨by decide, by decide⟩
  by_cases hG : c = 'G'
  · subst hG; right; exact ⟨by decide, by decide⟩
  by_cases hH : c = 'H'
  · subst hH; right; exact ⟨by decide, by decide⟩
  by_cases hI : c = 'I'
  · subst hI; right; exact ⟨by decide, by decide⟩
  by_cases hJ : c = 'J'
  · subst hJ; right; exact ⟨by decide, by decide⟩
  by_cases hK : c = 'K'
  · subst hK; right; exact ⟨by decide, by decide⟩
  by_cases hL : c = 'L'
  · subst hL; right; exact ⟨by decide, by decide⟩
  by_cases hM : c = 'M'
  · subst hM; right; exact ⟨by decide, by decide⟩
  by_cases hN : c = 'N'
  · subst hN; right; exact ⟨by decide, by decide⟩
  by_cases hO : c = 'O'
  · subst hO; right; exact ⟨by decide, by decide⟩
  by_cases hP : c = 'P'
  · subst hP; right; exact ⟨by decide, by decide⟩
  by_cases hQ : c = 'Q'
  · subst hQ; right; exact ⟨by decide, by decide⟩
  by_cases hR : c = 'R'
  · subst hR; right; exact ⟨by decide, by decide⟩
  by_cases hS : c = 'S'
  · subst hS; right; exact ⟨by decide, by decide⟩
  by_cases hT : c = 'T'
  · subst hT; right; exact ⟨by decide, by decide⟩
  by_cases hU : c = 'U'
  · subst hU; right; exact ⟨by decide, by decide⟩
  by_cases hV : c = 'V'
  · subst hV; right; exact ⟨by decide, by decide⟩
  by_cases hW : c = 'W'
  · subst hW; right; exact ⟨by decide, by decide⟩
  by_cases hX : c = 'X'
  · subst hX; right; exact ⟨by decide, by decide⟩
  by_cases hY : c = 'Y'
  · subst hY; right; exact ⟨by decide, by decide⟩
  by_cases hZ : c = 'Z'
  · subst hZ; right; exact ⟨by decide, by decide⟩
  left
  unfold py_to_lower
  rw [if_neg hA, if_neg hB, if_neg hC, if_neg hD, if_neg hE, if_neg hF, if_neg hG, if_neg hH, if_neg hI, if_neg hJ, if_neg hK, if_neg hL, if_neg hM, if_neg hN, if_neg hO, if_neg hP, if_neg hQ, if_neg hR, if_neg hS, if_neg hT, if_neg hU, if_neg hV, if_neg hW, if_neg hX, if_neg hY, if_neg hZ]

theorem py_to_lower_ne_imp_word {c : Char} (h : py_to_lower c ≠ c) :
    is_word_char c = true ∧ is_word_char (py_to_lower c) = true := by
  rcases py_to_lower_spec c with hc | hc
  · exact absurd hc h
  · exact hc

theorem word_char_of_lower_eq {a b : Char} (h : py_to_lower a = py_to_lower b) :
    is_word_char a = is_word_char b := by
  by_cases ha : py_to_lower a = a <;> by_cases hb : py_to_lower b = b
  · rw [ha, hb] at h; rw [h]
  · obtain ⟨hb1, hb2⟩ := py_to_lower_ne_imp_word hb
    rw [ha] at h
    rw [h, hb2, hb1]
  · obtain ⟨ha1, ha2⟩ := py_to_lower_ne_imp_word ha
    rw [hb] at h
    rw [← h, ha2, ha1]
  · obtain ⟨ha1, ha2⟩ := py_to_lower_ne_imp_word ha
    obtain ⟨hb1, hb2⟩ := py_to_lower_ne_imp_word hb
    rw [ha1, hb1]

theorem ci_starts_iff : ∀ (pat l : List Char), ci_starts pat l = true ↔
    pat.length ≤ l.length ∧
      (l.take pat.length).map py_to_lower = pat.map py_to_lower := by
  intro pat
  induction pat with
  | nil => intro l; simp [ci_starts]
  | cons p ps ih =>
    intro l
    cases l with
    | nil => simp [ci_starts]
    | cons c cs =>
      rw [ci_starts, Bool.and_eq_true, ih cs]
      simp only [List.length_cons, List.take_succ_cons, List.map_cons,
        List.cons.injEq, beq_iff_eq, Nat.add_le_add_iff_right]
      constructor
      · rintro ⟨h1, h2, h3⟩; exact ⟨h2, h1, h3⟩
      · rintro ⟨h1, h2, h3⟩; exact ⟨h2, h1, h3⟩

theorem ci_starts_length {pat l : List Char} (h : ci_starts pat l = true) :
    pat.length ≤ l.length := ((ci_starts_iff pat l).mp h).1

theorem ci_starts_congr {pat l l' : List Char}
    (h : l.map py_to_lower = l'.map py_to_lower) :
    ci_starts pat l = ci_starts pat l' := by
  have hlen : l.length = l'.length := by
    have := congrArg List.length h
    simpa using this
  cases hx : ci_starts pat l' with
  | true =>
    obtain ⟨h1, h2⟩ := (ci_starts_iff pat l').mp hx
    refine (ci_starts_iff pat l).mpr ⟨by omega, ?_⟩
    rw [List.map_take, h, ← List.map_take, h2]
  | false =>
    cases hy : ci_starts pat l with
    | false => rfl
    | true =>
      obtain ⟨h1, h2⟩ := (ci_starts_iff pat l).mp hy
      have : ci_starts pat l' = true := by
        refine (ci_starts_iff pat l').mpr ⟨by omega, ?_⟩
        rw [List.map_take, ← h, ← List.map_take, h2]
      rw [this] at hx
      exact absurd hx (by simp)

theorem head_all_word_congr {l l' : List Char}
    (h : l.map py_to_lower = l'.map py_to_lower) :
    (l.head?.all (fun d => !is_word_char d)) =
      (l'.head?.all (fun d => !is_word_char d)) := by
  have hh : l.head?.map py_to_lower = l'.head?.map py_to_lower := by
    rw [← List.head?_map, ← List.head?_map, h]
  cases hl : l.head? with
  | none =>
    cases hl' : l'.head? with
    | none => rfl
    | some b => rw [hl, hl'] at hh; simp at hh
  | some a =>
    cases hl' : l'.head? with
    | none => rw [hl, hl'] at hh; simp at hh
    | some b =>
      rw [hl, hl'] at hh
      simp only [Option.map_some', Option.some.injEq] at hh
      simp [word_char_of_lower_eq hh]

theorem getLast_all_word_congr {l l' : List Char}
    (h : l.map py_to_lower = l'.map py_to_lower) :
    (l.getLast?.all (fun d => !is_word_char d)) =
      (l'.getLast?.all (fun d => !is_word_char d)) := by
  have hh : l.getLast?.map py_to_lower = l'.getLast?.map py_to_lower := by
    rw [← List.getLast?_map, ← List.getLast?_map, h]
  cases hl : l.getLast? with
  | none =>
    cases hl' : l'.getLast? with
    | none => rfl
    | some b => rw [hl, hl'] at hh; simp at hh
  | some a =>
    cases hl' : l'.getLast? with
    | none => rw [hl, hl'] at hh; simp at hh
    | some b =>
      rw [hl, hl'] at hh
      simp only [Option.map_some', Option.some.injEq] at hh
      simp [word_char_of_lower_eq hh]

theorem ci_occurs_congr {prevW : Bool} {pat l l' : List Char}
    (h : l.map py_to_lower = l'.map py_to_lower) {i : Nat} :
    ci_occurs_at prevW pat l i ↔ ci_occurs_at prevW pat l' i := by
  have hdrop : ∀ n, (l.drop n).map py_to_lower = (l'.drop n).map py_to_lower := by
    intro n; rw [List.map_drop, List.map_drop, h]
  have htake : ∀ n, (l.take n).map py_to_lower = (l'.take n).map py_to_lower := by
    intro n; rw [List.map_take, List.map_take, h]
  unfold ci_occurs_at word_bound_before
  rw [ci_starts_congr (hdrop i), head_all_word_congr (hdrop (i + pat.length))]
  by_cases hi : i = 0
  · simp [hi]
  · simp only [hi, if_false]
    rw [getLast_all_word_congr (htake i)]

theorem all_word_of_ci {canon pat : List Char}
    (hci : canon.map py_to_lower = pat.map py_to_lower)
    (hword : ∀ p ∈ pat, is_word_char p = true) :
    ∀ c ∈ canon, is_word_char c = true := by
  induction canon generalizing pat with
  | nil => intro c hc; exact absurd hc (List.not_mem_nil c)
  | cons a as ih =>
    cases pat with
    | nil => intro c hc; simp at hci
    | cons p ps =>
      simp only [List.map_cons, List.cons.injEq] at hci
      intro c hc
      rcases List.mem_cons.mp hc with rfl | hc
      · rw [word_char_of_lower_eq hci.1]
        exact hword p (List.mem_cons_self _ _)
      · exact ih hci.2 (fun q hq => hword q (List.mem_cons_of_mem _ hq)) c hc


theorem starts_with_chars_iff : ∀ (pat l : List Char),
    starts_with_chars pat l = true ↔ l.take pat.length = pat := by
  intro pat
  induction pat with
  | nil => intro l; simp [starts_with_chars]
  | cons p ps ih =>
    intro l
    cases l with
    | nil => simp [starts_with_chars]
    | cons c cs =>
      rw [starts_with_chars, Bool.and_eq_true]
      simp only [decide_eq_true_eq, List.length_cons, List.take_succ_cons,
        List.cons.injEq, ih cs]
      constructor
      · rintro ⟨h1, h2⟩; exact ⟨h1.symm, h2⟩
      · rintro ⟨h1, h2⟩; exact ⟨h1.symm, h2⟩

theorem starts_with_chars_append {pat l : List Char} (t : List Char)
    (h : starts_with_chars pat l = true) :
    starts_with_chars pat (l ++ t) = true := by
  rw [starts_with_chars_iff] at h ⊢
  have hlen : pat.length ≤ l.length := by
    have h2 := congrArg List.length h
    simp only [List.length_take] at h2
    omega
  rw [List.take_append_of_le_length hlen, h]

theorem starts_with_chars_decomp {pat l : List Char}
    (h : starts_with_chars pat l = true) :
    l = pat ++ l.drop pat.length := by
  conv_lhs => rw [← List.take_append_drop pat.length l]
  rw [(starts_with_chars_iff pat l).mp h]

theorem starts_with_chars_nil {pat : List Char} (h : pat ≠ []) :
    starts_with_chars pat [] = false := by
  cases pat with
  | nil => exact absurd rfl h
  | cons p ps => rfl

theorem glue_parts_cons_head (sep : List Char) (c : Char) (q : List Char)
    (qs : List (List Char)) :
    glue_parts sep ((c :: q) :: qs) = c :: glue_parts sep (q :: qs) := by
  cases qs with
  | nil => rfl
  | cons q2 qs => rfl

theorem glue_parts_head_factor (sep q : List Char) (qs : List (List Char)) :
    ∃ t, glue_parts sep (q :: qs) = q ++ t := by
  cases qs with
  | nil => exact ⟨[], by simp [glue_parts]⟩
  | cons q2 qs =>
    exact ⟨sep ++ glue_parts sep (q2 :: qs), by rw [glue_parts, List.append_assoc]⟩

theorem del_parts_nil (old : List Char) (hold : old ≠ []) :
    ∃ parts : List (List Char), parts ≠ [] ∧
      ([] : List Char) = glue_parts old parts ∧
      ([] : List Char) = parts.flatten ∧
      ∀ p ∈ parts, ∀ i, starts_with_chars old (p.drop i) = false := by
  refine ⟨[[]], by simp, rfl, rfl, ?_⟩
  intro p hp i
  simp only [List.mem_singleton] at hp
  subst hp
  simp only [List.drop_nil]
  exact starts_with_chars_nil hold

theorem py_replace_del_go_spec (old : List Char) (hold : old ≠ []) :
    ∀ (fuel : Nat) (l : List Char), l.length ≤ fuel →
      ∃ parts : List (List Char), parts ≠ [] ∧
        l = glue_parts old parts ∧
        py_replace_del_go old fuel l = parts.flatten ∧
        ∀ p ∈ parts, ∀ i, starts_with_chars old (p.drop i) = false := by
  intro fuel
  induction fuel with
  | zero =>
    intro l hl
    cases l with
    | nil => exact del_parts_nil old hold
    | cons c rest => simp at hl
  | succ fuel ih =>
    intro l hl
    cases l with
    | nil => exact del_parts_nil old hold
    | cons c rest =>
      by_cases hC : old ≠ [] ∧ starts_with_chars old (c :: rest) = true
      · have hgo : py_replace_del_go old (fuel + 1) (c :: rest) =
            py_replace_del_go old fuel ((c :: rest).drop old.length) := by
          rw [py_replace_del_go, if_pos hC]
        have hlen2 : ((c :: rest).drop old.length).length ≤ fuel := by
          rw [List.length_drop]
          have h1 : 0 < old.length := List.length_pos.mpr hold
          simp only [List.length_cons] at hl ⊢
          omega
        obtain ⟨parts', hne', hglue', hgo', hfree'⟩ := ih _ hlen2
        rcases parts' with _ | ⟨q, qs⟩
        · exact absurd rfl hne'
        refine ⟨[] :: q :: qs, by simp, ?_, ?_, ?_⟩
        · show c :: rest = [] ++ old ++ glue_parts old (q :: qs)
          rw [List.nil_append, ← hglue']
          exact starts_with_chars_decomp hC.2
        · rw [hgo, hgo']; simp
        · intro p hp i
          rcases List.mem_cons.mp hp with rfl | hp
          · simp only [List.drop_nil]
            exact starts_with_chars_nil hold
          · exact hfree' p hp i
      · have hgo : py_replace_del_go old (fuel + 1) (c :: rest) =
            c :: py_replace_del_go old fuel rest := by
          rw [py_replace_del_go, if_neg hC]
        have hsw : starts_with_chars old (c :: rest) = false := by
          cases hx : starts_with_chars old (c :: rest) with
          | false => rfl
          | true => exact absurd ⟨hold, hx⟩ hC
        obtain ⟨parts', hne', hglue', hgo', hfree'⟩ :=
          ih rest (by simp only [List.length_cons] at hl; omega)
        rcases parts' with _ | ⟨q, qs⟩
        · exact absurd rfl hne'
        refine ⟨(c :: q) :: qs, by simp, ?_, ?_, ?_⟩
        · rw [glue_parts_cons_head, ← hglue']
        · rw [hgo, hgo', List.flatten_cons, List.flatten_cons, List.cons_append]
        · intro p hp i
          rcases List.mem_cons.mp hp with rfl | hp
          · cases i with
            | zero =>
              simp only [List.drop_zero]
              cases hx : starts_with_chars old (c :: q) with
              | false => rfl
              | true =>
                obtain ⟨t, ht⟩ := glue_parts_head_factor old q qs
                have hext : starts_with_chars old ((c :: q) ++ t) = true :=
                  starts_with_chars_append t hx
                have hre : c :: rest = (c :: q) ++ t := by
                  rw [List.cons_append, hglue', ht]
                rw [← hre] at hext
                rw [hsw] at hext
                exact (Bool.false_ne_true hext).elim
            | succ j =>
              simp only [List.drop_succ_cons]
              exact hfree' q (List.mem_cons_self _ _) j
          · exact hfree' p (List.mem_cons_of_mem _ hp) i

theorem py_replace_del_spec (old l : List Char) (hold : old ≠ []) :
    ∃ parts : List (List Char), parts ≠ [] ∧
      l = glue_parts old parts ∧
      py_replace_del old l = parts.flatten ∧
      ∀ p ∈ parts, ∀ i, starts_with_chars old (p.drop i) = false :=
  py_replace_del_go_spec old hold l.length l (Nat.le_refl _)

theorem ci_starts_nil_false {pat : List Char} (h : pat ≠ []) :
    ci_starts pat [] = false := by
  cases pat with
  | nil => exact absurd rfl h
  | cons p ps => rfl

theorem ci_occurs_cons {pat : List Char} (hpat : pat ≠ []) (prevW : Bool)
    (c : Char) (l : List Char) (j : Nat) :
    ci_occurs_at prevW pat (c :: l) (j + 1) ↔
      ci_occurs_at (is_word_char c) pat l j := by
  by_cases hj : j ≤ l.length
  case neg =>
    have h1 : l.drop j = [] := List.drop_eq_nil_of_le (by omega)
    constructor
    · rintro ⟨h2, -, -⟩
      rw [List.drop_succ_cons, h1, ci_starts_nil_false hpat] at h2
      exact absurd h2 (by simp)
    · rintro ⟨h2, -, -⟩
      rw [h1, ci_starts_nil_false hpat] at h2
      exact absurd h2 (by simp)
  case pos =>
    unfold ci_occurs_at word_bound_before
    rw [List.drop_succ_cons]
    have hdrop2 : j + 1 + pat.length = (j + pat.length) + 1 := by omega
    rw [hdrop2, List.drop_succ_cons]
    have hmid : (if j + 1 = 0 then prevW = false
        else (((c :: l).take (j + 1)).getLast?.all (fun d => !is_word_char d)) = true) ↔
        (if j = 0 then is_word_char c = false
        else ((l.take j).getLast?.all (fun d => !is_word_char d)) = true) := by
      rcases Nat.eq_zero_or_pos j with rfl | hjpos
      · simp only [if_neg (Nat.succ_ne_zero 0), if_pos rfl, List.take_succ_cons,
          List.take_zero]
        constructor
        · intro h; simpa using h
        · intro h; simpa using h
      · rw [if_neg (by omega : ¬ j + 1 = 0), if_neg (by omega : ¬ j = 0)]
        have hlne : l.take j ≠ [] := by
          rw [Ne, List.take_eq_nil_iff]
          push_neg
          refine ⟨by omega, ?_⟩
          intro h
          rw [h] at hj
          simp at hj
          omega
        obtain ⟨d, ds, hds⟩ := List.exists_cons_of_ne_nil hlne
        rw [List.take_succ_cons, hds, List.getLast?_cons_cons]
    rw [hmid]
theorem ci_occurs_append {pat : List Char} (hpat : pat ≠ []) :
    ∀ (pre l : List Char) (prevW : Bool) (i : Nat),
      ci_occurs_at prevW pat (pre ++ l) (pre.length + i) ↔
        ci_occurs_at (pre.getLast?.elim prevW is_word_char) pat l i := by
  intro pre
  induction pre with
  | nil =>
    intro l prevW i
    simp only [List.nil_append, List.length_nil, Nat.zero_add]
    rfl
  | cons c pre ih =>
    intro l prevW i
    have h1 : (c :: pre).length + i = (pre.length + i) + 1 := by
      simp only [List.length_cons]; omega
    rw [h1, List.cons_append, ci_occurs_cons hpat, ih l (is_word_char c) i]
    have h2 : (c :: pre).getLast?.elim prevW is_word_char
        = pre.getLast?.elim (is_word_char c) is_word_char := by
      rcases pre with _ | ⟨d, ds⟩
      · rfl
      · rw [List.getLast?_cons_cons]
        obtain ⟨e, he⟩ := exists_getLast_of_ne_nil (List.cons_ne_nil d ds)
        rw [he]
        rfl
    rw [h2]
theorem replace_word_ci_go_spec (pat canon : List Char) (hpat : pat ≠ [])
    (hci : canon.map py_to_lower = pat.map py_to_lower)
    (hword : ∀ p ∈ pat, is_word_char p = true) :
    ∀ (fuel : Nat) (l : List Char) (prevW : Bool), l.length ≤ fuel →
      (replace_word_ci_go pat canon fuel prevW l).map py_to_lower =
          l.map py_to_lower ∧
        ∀ i, ci_occurs_at prevW pat (replace_word_ci_go pat canon fuel prevW l) i →
          ((replace_word_ci_go pat canon fuel prevW l).drop i).take pat.length =
            canon := by
  have hcanon_word : ∀ d ∈ canon, is_word_char d = true := all_word_of_ci hci hword
  have hcanon_len : canon.length = pat.length := by
    have h := congrArg List.length hci; simpa using h
  have hcanon_ne : canon ≠ [] := by
    intro h
    rw [h] at hcanon_len
    cases pat with
    | nil => exact hpat rfl
    | cons p ps => simp at hcanon_len
  intro fuel
  induction fuel with
  | zero =>
    intro l prevW hl
    cases l with
    | nil =>
      refine ⟨rfl, ?_⟩
      intro i hocc
      have h1 := hocc.1
      rw [show replace_word_ci_go pat canon 0 prevW [] = [] from rfl,
        List.drop_nil, ci_starts_nil_false hpat] at h1
      exact absurd h1 (by simp)
    | cons c rest => simp at hl
  | succ fuel ih =>
    intro l prevW hl
    cases l with
    | nil =>
      refine ⟨rfl, ?_⟩
      intro i hocc
      have h1 := hocc.1
      rw [show replace_word_ci_go pat canon (fuel + 1) prevW [] = [] from rfl,
        List.drop_nil, ci_starts_nil_false hpat] at h1
      exact absurd h1 (by simp)
    | cons c rest =>
      by_cases hC : pat ≠ [] ∧ ci_starts pat (c :: rest) = true ∧ prevW = false ∧
          (((c :: rest).drop pat.length).head?.all (fun d => !is_word_char d)) = true
      · have hgo : replace_word_ci_go pat canon (fuel + 1) prevW (c :: rest) =
            canon ++ replace_word_ci_go pat canon fuel
              ((((c :: rest).take pat.length).getLast?).elim prevW is_word_char)
              ((c :: rest).drop pat.length) := by
          rw [replace_word_ci_go, if_pos hC]
        have hslice_map : ((c :: rest).take pat.length).map py_to_lower =
            pat.map py_to_lower :=
          ((ci_starts_iff pat (c :: rest)).mp hC.2.1).2
        have hslice_word : ∀ d ∈ (c :: rest).take pat.length, is_word_char d = true :=
          all_word_of_ci hslice_map hword
        have hslice_len : ((c :: rest).take pat.length).length = pat.length := by
          have h := congrArg List.length hslice_map; simpa using h
        have hslice_ne : (c :: rest).take pat.length ≠ [] := by
          intro h
          rw [h] at hslice_len
          cases pat with
          | nil => exact hpat rfl
          | cons p ps => simp at hslice_len
        have hprevW' : ((((c :: rest).take pat.length).getLast?).elim prevW
            is_word_char) = true := by
          obtain ⟨d, hd⟩ := exists_getLast_of_ne_nil hslice_ne
          rw [hd]
          exact hslice_word d (List.mem_of_mem_getLast? hd)
        have hdr_len : ((c :: rest).drop pat.length).length ≤ fuel := by
          rw [List.length_drop]
          have h1 : 0 < pat.length := List.length_pos.mpr hpat
          simp only [List.length_cons] at hl ⊢
          omega
        obtain ⟨ih1, ih2⟩ := ih ((c :: rest).drop pat.length)
          ((((c :: rest).take pat.length).getLast?).elim prevW is_word_char) hdr_len
        constructor
        · rw [hgo, List.map_append, ih1, hci, ← hslice_map, ← List.map_append,
            List.take_append_drop]
        · intro i hocc
          rw [hgo] at hocc ⊢
          rcases Nat.lt_or_ge i 1 with hi0 | hi1
          · have hi : i = 0 := by omega
            subst hi
            rw [List.drop_zero, ← hcanon_len, List.take_left]
          · rcases Nat.lt_or_ge i (canon.length + 1) with hilt | hige
            · exfalso
              have hwb := hocc.2.1
              unfold word_bound_before at hwb
              rw [if_neg (by omega : ¬ i = 0)] at hwb
              have htake : (canon ++ replace_word_ci_go pat canon fuel
                  ((((c :: rest).take pat.length).getLast?).elim prevW is_word_char)
                  ((c :: rest).drop pat.length)).take i = canon.take i :=
                List.take_append_of_le_length (by omega)
              rw [htake] at hwb
              have hne : canon.take i ≠ [] := by
                rw [Ne, List.take_eq_nil_iff]
                push_neg
                exact ⟨by omega, hcanon_ne⟩
              obtain ⟨d, hd⟩ := exists_getLast_of_ne_nil hne
              rw [hd] at hwb
              have hdmem : d ∈ canon :=
                List.take_subset _ _ (List.mem_of_mem_getLast? hd)
              have hdw := hcanon_word d hdmem
              rw [Option.all_some, hdw] at hwb
              simp at hwb
            · obtain ⟨j, rfl⟩ : ∃ j, i = canon.length + j :=
                ⟨i - canon.length, by omega⟩
              have htrans := (ci_occurs_append hpat canon _ prevW j).mp hocc
              have helim : ((canon.getLast?).elim prevW is_word_char) = true := by
                obtain ⟨d, hd⟩ := exists_getLast_of_ne_nil hcanon_ne
                rw [hd]
                exact hcanon_word d (List.mem_of_mem_getLast? hd)
              rw [helim, ← hprevW'] at htrans
              have hq := ih2 j htrans
              rw [List.drop_append]
              exact hq
      · have hgo : replace_word_ci_go pat canon (fuel + 1) prevW (c :: rest) =
            c :: replace_word_ci_go pat canon fuel (is_word_char c) rest := by
          rw [replace_word_ci_go, if_neg hC]
        obtain ⟨ih1, ih2⟩ := ih rest (is_word_char c)
          (by simp only [List.length_cons] at hl; omega)
        have hmap : (c :: replace_word_ci_go pat canon fuel (is_word_char c)
            rest).map py_to_lower = (c :: rest).map py_to_lower := by
          simp only [List.map_cons, ih1]
        constructor
        · rw [hgo]
          exact hmap
        · intro i hocc
          rw [hgo] at hocc ⊢
          cases i with
          | zero =>
            exfalso
            have hocc' := (ci_occurs_congr hmap).mp hocc
            obtain ⟨h1, h2, h3⟩ := hocc'
            rw [List.drop_zero] at h1
            unfold word_bound_before at h2
            rw [if_pos rfl] at h2
            rw [Nat.zero_add] at h3
            exact hC ⟨hpat, h1, h2, h3⟩
          | succ j =>
            have htrans := (ci_occurs_cons hpat prevW c _ j).mp hocc
            have hq := ih2 j htrans
            rw [List.drop_succ_cons]
            exact hq
theorem replace_word_ci_spec (pat canon : List Char) (hpat : pat ≠ [])
    (hci : canon.map py_to_lower = pat.map py_to_lower)
    (hword : ∀ p ∈ pat, is_word_char p = true) (l : List Char) :
    (replace_word_ci pat canon l).map py_to_lower = l.map py_to_lower ∧
      ∀ i, boundary_ci_occ pat (replace_word_ci pat canon l) i →
        ((replace_word_ci pat canon l).drop i).take pat.length = canon :=
  replace_word_ci_go_spec pat canon hpat hci hword l.length l false (Nat.le_refl _)

theorem fixes_side_conditions : ∀ pc ∈ financial_fixes, pc.1 ≠ [] ∧
    pc.2.map py_to_lower = pc.1.map py_to_lower ∧
    ∀ p ∈ pc.1, is_word_char p = true := by decide

theorem foldl_replace_map_lower :
    ∀ (fs : List (List Char × List Char)),
      (∀ pc ∈ fs, pc.1 ≠ [] ∧ pc.2.map py_to_lower = pc.1.map py_to_lower ∧
        ∀ p ∈ pc.1, is_word_char p = true) →
      ∀ l : List Char,
        (fs.foldl (fun acc p => replace_word_ci p.1 p.2 acc) l).map py_to_lower =
          l.map py_to_lower := by
  intro fs
  induction fs with
  | nil => intro _ l; rfl
  | cons pc fs ih =>
    intro h l
    obtain ⟨h1, h2, h3⟩ := h pc (List.mem_cons_self _ _)
    rw [List.foldl_cons, ih (fun q hq => h q (List.mem_cons_of_mem _ hq)),
      (replace_word_ci_spec pc.1 pc.2 h1 h2 h3 l).1]

theorem financial_pass_map_lower (l : List Char) :
    (financial_pass l).map py_to_lower = l.map py_to_lower :=
  foldl_replace_map_lower financial_fixes fixes_side_conditions l

/-- C10: the final transcript is not the verbatim transcribed text.
`post_process_transcript` canonicalises the fixed financial-acronym table and
deletes the anti-hallucination sentence and the injected context-keyword
string.  Formally: (1) each `re.sub(rf"\\b\x7bpat\x7d\\b", canon, text,
flags=re.IGNORECASE)` pass over a `financial_fixes` entry preserves the text
case-insensitively and leaves every boundary-delimited case-insensitive
occurrence of the acronym in its output reading exactly as the canonical
form; (2) the whole financial loop preserves the text case-insensitively;
(3) `text.replace(old, "")` splits its input into occurrence-free parts glued
by `old` and returns exactly their concatenation, deleting every scanned
occurrence — applied by the code to the two hallucination sentences and to
the keyword (bare, with comma, with period); and (4) on a concrete
transcript the pipeline rewrites `ebitda`/`pat`/`yoy` to `EBITDA`/`PAT`/`YoY`,
capitalises the speaker tag and deletes the keyword, so the output text
differs from the input text. -/
theorem C10_canonicalise_and_delete :
    (∀ pc ∈ financial_fixes, ∀ l : List Char,
        (replace_word_ci pc.1 pc.2 l).map py_to_lower = l.map py_to_lower ∧
        ∀ i, boundary_ci_occ pc.1 (replace_word_ci pc.1 pc.2 l) i →
          ((replace_word_ci pc.1 pc.2 l).drop i).take pc.1.length = pc.2) ∧
    (∀ l : List Char,
        (financial_pass l).map py_to_lower = l.map py_to_lower) ∧
    (∀ old l : List Char, old ≠ [] →
        ∃ parts : List (List Char), parts ≠ [] ∧
          l = glue_parts old parts ∧
          py_replace_del old l = parts.flatten ∧
          ∀ p ∈ parts, ∀ i, starts_with_chars old (p.drop i) = false) ∧
    post_process_transcript
        "speaker 2: ebitda and pat rose yoy. Context words".toList
        "Context words".toList =
      "Speaker 2: EBITDA and PAT rose YoY.".toList ∧
    post_process_transcript
        "speaker 2: ebitda and pat rose yoy. Context words".toList
        "Context words".toList ≠
      "speaker 2: ebitda and pat rose yoy. Context words".toList := by
  refine ⟨?_, financial_pass_map_lower, ?_, by decide, by decide⟩
  · intro pc hpc l
    obtain ⟨h1, h2, h3⟩ := fixes_side_conditions pc hpc
    exact replace_word_ci_spec pc.1 pc.2 h1 h2 h3 l
  · intro old l hold
    exact py_replace_del_spec old l hold

/-- Witness for C10: a concrete deletion instance, with the non-emptiness
hypothesis discharged by evaluation. -/
theorem C10_witness :
    ("Lakh".toList ≠ ([] : List Char)) ∧
    (∃ parts : List (List Char), parts ≠ [] ∧
      "xLakhy".toList = glue_parts "Lakh".toList parts ∧
      py_replace_del "Lakh".toList "xLakhy".toList = parts.flatten ∧
      ∀ p ∈ parts, ∀ i, starts_with_chars "Lakh".toList (p.drop i) = false) :=
  ⟨by decide,
    C10_canonicalise_and_delete.2.2.1 "Lakh".toList "xLakhy".toList (by decide)⟩


end TranscriptAI
